import Mathlib

/-!
# Verification of the rust-ffi-checker taint-analysis core

This development is a shallow embedding, in Lean 4, of the core data
structures and algorithms of the `rust-ffi-checker` static analyzer:

* `src/analysis/abstract_domain.rs` — the `MemoryState` lattice, `Allocation`
  equivalence classes, the `BlockState` map lattice and the `AbstractDomain`;
* `src/analysis/known_names.rs` — classification of function symbols;
* `src/analysis/diagnosis.rs` — bug reports;
* `src/analysis/block_visitor.rs` — the transfer functions over LLVM IR
  instructions, the intrinsic catalogue and diagnosis emission;
* `src/analysis/taint_analysis.rs` — the per-function worklist solver and the
  interprocedural summary computation.

Modelling conventions:

* Rust `HashMap`s are modelled as association lists.  A `HashMap`'s iteration
  order is unspecified in Rust; the model determinizes it as insertion order
  (`mapInsert` replaces in place or appends at the end).  Proofs that depend on
  an iteration order therefore exhibit behaviour under one admissible order.
* Rust `BTreeSet<Name>` is modelled as a list ordered by the derived order on
  `llvm_ir::Name` (`Name(String)` before `Number(usize)`, both componentwise);
  `insert` and `append`/`union` are implemented as ordered merges.
* Panics (`assert!`, slice indexing, `unwrap`) of fallible code paths that the
  claims are about are modelled with `Option` (`none` = panic).
* Machine integers (`u32` counters, `usize`) are modelled as `Nat`; no
  arithmetic in the modelled code can overflow the Rust types.
-/

namespace FFIChecker

/-! ## Reduction-friendly string predicates

The Lean core `String.startsWith`/`endsWith`/`splitOn` are compiled by
well-founded recursion and do not reduce definitionally, so the Rust
`str::starts_with`, `str::ends_with`, `str::contains` and `str::split('.')`
are modelled by structurally recursive functions on the character lists. -/

/-- Whether the first character list begins with the second. -/
def charsBeginWith : List Char → List Char → Bool
  | _, [] => true
  | [], _ :: _ => false
  | c :: cs, d :: ds => c = d && charsBeginWith cs ds

/-- Rust `str::starts_with`. -/
def strStartsWith (s pat : String) : Bool :=
  charsBeginWith s.data pat.data

/-- Rust `str::ends_with`. -/
def strEndsWith (s pat : String) : Bool :=
  charsBeginWith s.data.reverse pat.data.reverse

/-- Whether some suffix of the character list begins with `pat`. -/
def charsContain (pat : List Char) : List Char → Bool
  | [] => charsBeginWith [] pat
  | c :: cs => charsBeginWith (c :: cs) pat || charsContain pat cs

/-- Rust `str::contains` (substring containment). -/
def strContainsSub (s pat : String) : Bool :=
  charsContain pat.data s.data

/-- Split a character list at `'.'` separators (Rust `str::split('.')`). -/
def splitOnDotChars : List Char → List (List Char)
  | [] => [[]]
  | c :: cs =>
    if c = '.' then [] :: splitOnDotChars cs
    else
      match splitOnDotChars cs with
      | [] => [[c]]
      | p :: ps => (c :: p) :: ps

/-! ## Association-list model of Rust `HashMap` -/

variable {κ α : Type _}

/-- Lookup in an association list: the value of the first entry with the key.
Models `HashMap::get`. -/
def mapFind? [DecidableEq κ] (m : List (κ × α)) (k : κ) : Option α :=
  (m.find? (fun p => p.1 = k)).map (·.2)

/-- Insert into an association list, replacing in place when the key is
present and appending otherwise.  Models `HashMap::insert` with iteration
order determinized as insertion order. -/
def mapInsert [DecidableEq κ] (m : List (κ × α)) (k : κ) (v : α) : List (κ × α) :=
  if m.any (fun p => p.1 = k) then
    m.map (fun p => if p.1 = k then (k, v) else p)
  else
    m ++ [(k, v)]

/-- Remove all entries with the given key.  Models `HashMap::remove`. -/
def mapRemove [DecidableEq κ] (m : List (κ × α)) (k : κ) : List (κ × α) :=
  m.filter (fun p => ¬ p.1 = k)

/-- Insert into a list modelling a Rust `HashSet` (no-op when present). -/
def setInsert [DecidableEq α] (l : List α) (a : α) : List α :=
  if a ∈ l then l else l ++ [a]

/-! ## `MemoryState` — the five-valued lattice (`abstract_domain.rs`) -/

/-- The five-valued memory state lattice of `abstract_domain.rs`. -/
inductive MemoryState where
  | Untainted
  | Tainted
  | Borrowed
  | Forgotten
  | Unknown
deriving DecidableEq, Repr, Inhabited

namespace MemoryState

/-- `<MemoryState as PartialOrd>::partial_cmp`, translated clause by clause.
`Borrowed` and `Forgotten` are the only incomparable pair. -/
def partialCmp (a b : MemoryState) : Option Ordering :=
  if a = b then some .eq
  else if a = Untainted then some .lt
  else if a = Tainted then
    if b = Untainted then some .gt else some .lt
  else if a = Borrowed then
    if b = Untainted ∨ b = Tainted then some .gt
    else if b = Forgotten then none
    else some .lt
  else if a = Forgotten then
    if b = Untainted ∨ b = Tainted then some .gt
    else if b = Borrowed then none
    else some .lt
  else some .gt

/-- Rust `a <= b` via `partial_cmp` (Less or Equal). -/
def le (a b : MemoryState) : Bool :=
  match partialCmp a b with
  | some .lt => true
  | some .eq => true
  | _ => false

/-- Rust `a >= b` via `partial_cmp` (Greater or Equal). -/
def ge (a b : MemoryState) : Bool :=
  match partialCmp a b with
  | some .gt => true
  | some .eq => true
  | _ => false

/-- Rust `a < b` via `partial_cmp` (strictly Less). -/
def lt (a b : MemoryState) : Bool :=
  match partialCmp a b with
  | some .lt => true
  | _ => false

/-- Rust `a > b` via `partial_cmp` (strictly Greater). -/
def gt (a b : MemoryState) : Bool :=
  match partialCmp a b with
  | some .gt => true
  | _ => false

/-- `MemoryState::union`: the least upper bound (`Unknown` for the
incomparable pair `Borrowed`/`Forgotten`). -/
def union (a b : MemoryState) : MemoryState :=
  if le a b then b
  else if ge a b then a
  else Unknown

end MemoryState

/-! ## Names and allocations -/

/-- `llvm_ir::Name`: either a textual or a numbered SSA identifier. -/
inductive LlvmName where
  | str : String → LlvmName
  | num : Nat → LlvmName
deriving DecidableEq, Repr, Inhabited

/-- The derived `Ord` on `llvm_ir::Name`: the `Name` (string) variant is
declared first, so all strings come before all numbers. -/
def LlvmName.cmp (a b : LlvmName) : Ordering :=
  match a, b with
  | .str s, .str t => compare s t
  | .str _, .num _ => .lt
  | .num _, .str _ => .gt
  | .num m, .num n => compare m n

/-- Ordered insertion into a `BTreeSet`-like list (no duplicates). -/
def btreeInsert (l : List LlvmName) (v : LlvmName) : List LlvmName :=
  match l with
  | [] => [v]
  | x :: xs =>
    match LlvmName.cmp v x with
    | .lt => v :: x :: xs
    | .eq => x :: xs
    | .gt => x :: btreeInsert xs v

/-- Ordered union of two `BTreeSet`-like lists.  Models both
`BTreeSet::union` (used in `BlockState::union`) and `BTreeSet::append`
(used in `propagate_taint`), which both produce the set union. -/
def btreeMerge : List LlvmName → List LlvmName → List LlvmName
  | [], ys => ys
  | xs, [] => xs
  | x :: xs, y :: ys =>
    match LlvmName.cmp x y with
    | .lt => x :: btreeMerge xs (y :: ys)
    | .eq => x :: btreeMerge xs ys
    | .gt => y :: btreeMerge (x :: xs) ys

/-- `Allocation`: a set of SSA names aliasing the same underlying buffer. -/
structure Allocation where
  set : List LlvmName
deriving DecidableEq, Repr, Inhabited

namespace Allocation

/-- `Allocation::new`. -/
def new (v : LlvmName) : Allocation := ⟨[v]⟩

/-- `Allocation::insert`. -/
def insert (a : Allocation) (v : LlvmName) : Allocation := ⟨btreeInsert a.set v⟩

end Allocation

/-- The dot-separated cumulative prefixes of a textual name: for
`"a.really.long"` this is `["a", "a.really", "a.really.long"]`, mirroring the
accumulation loop in `BlockState::set_tainted`. -/
def dottedParts (s : String) : List String :=
  let parts := (splitOnDotChars s.data).map (fun l => String.mk l)
  (List.range parts.length).map (fun i => String.intercalate "." (parts.take (i + 1)))

/-- Extend an allocation with all dot-separated cumulative prefixes of `var`
when `var` is textual; numeric names are left alone.  This is the expansion
loop shared by both branches of `BlockState::set_tainted`. -/
def expandName (a : Allocation) (var : LlvmName) : Allocation :=
  match var with
  | .str s => (dottedParts s).foldl (fun acc p => acc.insert (.str p)) a
  | .num _ => a

/-! ## `BlockState` (`abstract_domain.rs`) -/

/-- `BlockState`: a map from allocation classes to memory states.  The Rust
`HashMap<Allocation, MemoryState>` is modelled as an association list whose
order stands for the (unspecified) iteration order. -/
structure BlockState where
  state : List (Allocation × MemoryState)
deriving DecidableEq, Repr, Inhabited

instance : EmptyCollection BlockState := ⟨⟨[]⟩⟩

namespace BlockState

/-- `BlockState::get_memory_state`: scan the classes; the state of the first
class containing `var`, else `Untainted`. -/
def get_memory_state (st : BlockState) (var : LlvmName) : MemoryState :=
  match st.state.find? (fun p => var ∈ p.1.set) with
  | some p => p.2
  | none => .Untainted

/-- `BlockState::get_allocation`: the first class containing `var`. -/
def get_allocation (st : BlockState) (var : LlvmName) : Option Allocation :=
  (st.state.find? (fun p => var ∈ p.1.set)).map (·.1)

/-- `BlockState::is_tainted`: `Tainted <= get_memory_state(var)`. -/
def is_tainted (st : BlockState) (var : LlvmName) : Bool :=
  MemoryState.le .Tainted (st.get_memory_state var)

/-- `BlockState::set_tainted`, translated branch by branch.  When `var` is
textual, the class is extended with all cumulative dot-prefixes of `var`. -/
def set_tainted (st : BlockState) (var : LlvmName) (s : MemoryState) : BlockState :=
  match st.get_allocation var with
  | some alloc =>
    if s = .Untainted then
      ⟨mapRemove st.state alloc⟩
    else
      let st' := mapRemove st.state alloc
      let alloc' := expandName alloc var
      ⟨mapInsert st' alloc' s⟩
  | none =>
    if s ≠ .Untainted then
      let alloc' := expandName (Allocation.new var) var
      ⟨mapInsert st.state alloc' s⟩
    else st

/-- `BlockState::propagate_taint`, translated branch by branch.  In the Rust
code the `unwrap` of `get_allocation(from)` cannot fail because
`from_state ≠ Untainted` implies some class contains `from`; the dead branch
returns the state unchanged (Rust would panic). -/
def propagate_taint (st : BlockState) (from_ dst : LlvmName) : BlockState :=
  let fromState := st.get_memory_state from_
  if fromState = .Untainted then
    match st.get_allocation dst with
    | some toAlloc =>
      let memState := (mapFind? st.state toAlloc).getD .Untainted
      let newToAlloc : Allocation := ⟨toAlloc.set.filter (fun v => ¬ v = dst)⟩
      let st' := mapRemove st.state toAlloc
      if newToAlloc.set.isEmpty then ⟨st'⟩
      else ⟨mapInsert st' newToAlloc memState⟩
    | none => st
  else
    match st.get_allocation from_ with
    | some fromAlloc =>
      match st.get_allocation dst with
      | some toAlloc =>
        let st' := mapRemove (mapRemove st.state fromAlloc) toAlloc
        let merged : Allocation := ⟨btreeMerge fromAlloc.set toAlloc.set⟩
        ⟨mapInsert st' merged fromState⟩
      | none =>
        let st' := mapRemove st.state fromAlloc
        let merged := fromAlloc.insert dst
        ⟨mapInsert st' merged fromState⟩
    | none => st

/-- One step of the loop body of `BlockState::union` for a single variable
drawn from `all_vars`.  The final `unreachable!` branch of the Rust code is
dead (every variable of `all_vars` belongs to a class of `self` or `other`);
the model returns the accumulator unchanged there. -/
def unionStep (self other : BlockState) (res : BlockState) (var : LlvmName) : BlockState :=
  let varState := res.get_memory_state var
  if MemoryState.gt varState .Untainted then
    match res.get_allocation var with
    | some alloc =>
      let varState' := (varState.union (self.get_memory_state var)).union
        (other.get_memory_state var)
      ⟨mapInsert res.state alloc varState'⟩
    | none => res
  else
    match self.get_allocation var with
    | some alloc1 =>
      match other.get_allocation var with
      | some alloc2 =>
        let alloc : Allocation := ⟨btreeMerge alloc1.set alloc2.set⟩
        let vState := ((mapFind? self.state alloc1).getD .Untainted).union
          ((mapFind? other.state alloc2).getD .Untainted)
        ⟨mapInsert res.state alloc vState⟩
      | none =>
        ⟨mapInsert res.state alloc1 ((mapFind? self.state alloc1).getD .Untainted)⟩
    | none =>
      match other.get_allocation var with
      | some alloc2 =>
        ⟨mapInsert res.state alloc2 ((mapFind? other.state alloc2).getD .Untainted)⟩
      | none => res

/-- `BlockState::union`: collect every variable of every class of both
operands (keys of `self` then keys of `other`, each class in set order) and
fold the per-variable step over them. -/
def union (self other : BlockState) : BlockState :=
  let allVars := (self.state ++ other.state).flatMap (fun p => p.1.set)
  allVars.foldl (unionStep self other) ⟨[]⟩

/-- `HashMap` equality on the underlying maps: same size and every entry of
the first present in the second (order-independent, unlike list equality). -/
def mapEq (st other : BlockState) : Bool :=
  st.state.length = other.state.length &&
    st.state.all (fun p => mapFind? other.state p.1 = some p.2)

/-- The flattening of a `BlockState` into a name-to-state map, built exactly
as in `BlockState::partial_cmp`: iterate the classes in map order and insert
every member name (later classes overwrite earlier ones on overlap). -/
def flatten (st : BlockState) : List (LlvmName × MemoryState) :=
  st.state.foldl (fun acc p => p.1.set.foldl (fun acc2 v => mapInsert acc2 v p.2) acc) []

/-- `<BlockState as PartialOrd>::partial_cmp`: equal maps compare `Equal`;
otherwise compare the flattened name-to-state views and answer `Less` when
every name of `self` is bound in `other` to a state at least as high. -/
def partialCmp (self other : BlockState) : Option Ordering :=
  if mapEq self other then some .eq
  else
    let sf := flatten self
    let of_ := flatten other
    if sf.all (fun p =>
        match mapFind? of_ p.1 with
        | some o => MemoryState.le p.2 o
        | none => false) then
      some .lt
    else none

/-- Rust `self <= other` on `BlockState` via `partial_cmp`. -/
def le (self other : BlockState) : Bool :=
  match partialCmp self other with
  | some .lt => true
  | some .eq => true
  | _ => false

end BlockState

/-! ## `AbstractDomain` (`abstract_domain.rs`) -/

/-- `AbstractDomain`: a map from basic-block name to `BlockState`. -/
structure AbstractDomain where
  map : List (LlvmName × BlockState)
deriving DecidableEq, Repr, Inhabited

namespace AbstractDomain

/-- `AbstractDomain::get`. -/
def get (d : AbstractDomain) (name : LlvmName) : Option BlockState :=
  mapFind? d.map name

/-- `AbstractDomain::insert`. -/
def insert (d : AbstractDomain) (name : LlvmName) (st : BlockState) : AbstractDomain :=
  ⟨mapInsert d.map name st⟩

end AbstractDomain

/-! ## Diagnoses (`diagnosis.rs`) -/

/-- `BugType`. -/
inductive BugType where
  | UseAfterFree
  | DoubleFree
  | MemoryLeakage
deriving DecidableEq, Repr, Inhabited

/-- `Seriousness` (ordering `Low < Medium < High` is derived in Rust but not
needed by the modelled code paths). -/
inductive Seriousness where
  | Low
  | Medium
  | High
deriving DecidableEq, Repr, Inhabited

/-- `BugInfo`: whether the foreign callee's IR was known, the possible bug
kinds, and an optional message. -/
structure BugInfo where
  ffiKnown : Bool
  possibleBugs : List BugType
  msg : Option String
deriving DecidableEq, Repr, Inhabited

/-- `Diagnosis`: a bug report keyed by the enclosing (demangled) function. -/
structure Diagnosis where
  seriousness : Seriousness
  bugInfo : BugInfo
  functionName : String
deriving DecidableEq, Repr, Inhabited

/-! ## Function-symbol classification (`known_names.rs`) -/

/-- The intrinsic catalogue of `known_names.rs`. -/
inductive Intrinsic where
  | Memcpy
  | IntoVec
  | Deref
  | RcNew
  | Unwrap
  | CStringIntoRaw
  | CStringAsCStr
  | Forget
  | VecIntoRawParts
  | VecAsPtr
  | VecFromRawParts
  | VecPush
  | BoxIntoRaw
deriving DecidableEq, Repr, Inhabited

/-- `KnownNameType`. -/
inductive KnownNameType where
  | AllocSource
  | FreeSink
  | FFISink
  | Ignore
  | Intrinsic (i : Intrinsic)
  | Normal
deriving DecidableEq, Repr, Inhabited

namespace KnownNames

/-- The hard-coded allocation sources of `KnownNames::default`. -/
def allocSources : List String :=
  ["alloc::alloc::exchange_malloc", "__rust_alloc", "__rust_realloc",
   "__rust_alloc_zeroed", "<alloc::alloc::Global as core::alloc::AllocRef>::alloc"]

/-- The hard-coded deallocation sinks of `KnownNames::default`. -/
def freeSinks : List String := ["free", "free_rbox_raw"]

/-- The hard-coded substring deny-list of `KnownNames::default`. -/
def shouldIgnoreList : List String := ["llvm.dbg", "__rust_dealloc", "lang_start_internal"]

/-- `KnownNames::is_alloc_source` (the caller passes the demangled name,
so the model takes the already-demangled name). -/
def is_alloc_source (demangledName : String) : Bool :=
  allocSources.contains demangledName

/-- `KnownNames::is_free_sink` on the demangled name. -/
def is_free_sink (demangledName : String) : Bool :=
  freeSinks.contains demangledName

/-- `KnownNames::should_ignore`: substring containment against the deny-list. -/
def should_ignore (funcName : String) : Bool :=
  shouldIgnoreList.any (fun s => strContainsSub funcName s)

/-- `KnownNames::get_intrinsic`, translated clause by clause in source order. -/
def get_intrinsic (funcName : String) : Option Intrinsic :=
  if strStartsWith funcName "llvm.memcpy" then some .Memcpy
  else if strEndsWith funcName "into_vec" then some .IntoVec
  else if strEndsWith funcName "::deref_mut" || strEndsWith funcName "::deref" then some .Deref
  else if funcName = "alloc::rc::Rc<T>::new" then some .RcNew
  else if funcName = "core::result::Result<T,E>::unwrap" then some .Unwrap
  else if funcName = "std::ffi::c_str::CString::into_raw" then some .CStringIntoRaw
  else if funcName = "std::ffi::c_str::CString::as_c_str" ||
          funcName = "std::ffi::c_str::CString::as_bytes" ||
          funcName = "std::ffi::c_str::CString::as_bytes_with_nul" then some .CStringAsCStr
  else if funcName = "alloc::boxed::Box<T,A>::into_raw" then some .BoxIntoRaw
  else if funcName = "core::mem::forget" then some .Forget
  else if funcName = "alloc::vec::Vec<T,A>::into_raw_parts" ||
          funcName = "alloc::vec::Vec<T,A>::into_raw_parts_with_alloc" then
    some .VecIntoRawParts
  else if funcName = "alloc::vec::Vec<T,A>::as_mut_ptr" ||
          funcName = "alloc::vec::Vec<T,A>::as_ptr" ||
          funcName = "alloc::vec::Vec<T,A>::as_mut_slice" ||
          funcName = "alloc::vec::Vec<T,A>::as_slice" then some .VecAsPtr
  else if strEndsWith funcName "from_raw_parts" || strEndsWith funcName "from_raw_parts_mut" then
    some .VecFromRawParts
  else if funcName = "alloc::vec::Vec<T,A>::push" then some .VecPush
  else none

/-- `KnownNames::get_type`: the first matching rule wins, in the source order
AllocSource, FreeSink, Ignore, Intrinsic, Normal.  The argument is the
demangled name (as at the call site in `BlockVisitor::get_function_type`). -/
def get_type (funcName : String) : KnownNameType :=
  if is_alloc_source funcName then .AllocSource
  else if is_free_sink funcName then .FreeSink
  else if should_ignore funcName then .Ignore
  else
    match get_intrinsic funcName with
    | some i => .Intrinsic i
    | none => .Normal

end KnownNames

/-! ## LLVM IR model

The instruction type covers the constructors that the verified claims are
about (`phi`, `alloca`, `call`, plus the `load`/`store`/`bitcast` propagation
pattern and a `no-op` constructor standing for all instruction kinds the Rust
dispatcher sends to `_ => ()`).  The remaining propagation-style instructions
of `block_visitor.rs` (`getelementptr`, `trunc`, `zext`, …) are textually
identical to `load`/`bitcast` in the source and are not duplicated here. -/

/-- `llvm_ir::Operand`: a local SSA operand carrying a name, or any other
operand (constants, metadata), which the transfer functions ignore. -/
inductive Operand where
  | local_ (n : LlvmName) : Operand
  | constOp : Operand
deriving DecidableEq, Repr, Inhabited

/-- The callee position of a call/invoke:
`global s` models `Either::Right(ConstantOperand(GlobalReference(Name::Name s)))`
(so `get_func_name_from_call` returns `Some s`); `fnPointer` models a callee
operand of pointer-to-function type (`is_function_pointer_from_call` true);
`otherCallee` models every remaining shape (both return `None`/`false`). -/
inductive CalleeRef where
  | global (s : String)
  | fnPointer
  | otherCallee
deriving DecidableEq, Repr, Inhabited

/-- The instruction constructors used by the claims. -/
inductive Instruction where
  | load (address : Operand) (dest : LlvmName)
  | store (address : Operand) (value : Operand)
  | bitcast (operand : Operand) (dest : LlvmName)
  | phi (incomingValues : List (Operand × LlvmName)) (dest : LlvmName)
  | alloca (allocatedTypeName : Option String) (dest : LlvmName)
  | call (function : CalleeRef) (arguments : List Operand) (dest : Option LlvmName)
  | otherInstr
deriving DecidableEq, Repr, Inhabited

/-- Terminators.  `invoke` carries its result name and its two successor
labels; `otherTerm` stands for the terminator kinds ignored by the visitor
and with no block successors relevant to the claims. -/
inductive Terminator where
  | ret (returnOperand : Option Operand)
  | br (dest : LlvmName)
  | condBr (trueDest falseDest : LlvmName)
  | invoke (function : CalleeRef) (arguments : List Operand) (result : LlvmName)
      (returnDest exceptionDest : LlvmName)
  | otherTerm
deriving DecidableEq, Repr, Inhabited

/-- `llvm_ir::BasicBlock`. -/
structure LBasicBlock where
  name : LlvmName
  instrs : List Instruction
  term : Terminator
deriving DecidableEq, Repr, Inhabited

/-- `llvm_ir::function::Parameter` (only the name is used). -/
structure Parameter where
  name : LlvmName
deriving DecidableEq, Repr, Inhabited

/-- `llvm_ir::Function`. -/
structure LFunction where
  name : String
  parameters : List Parameter
  basicBlocks : List LBasicBlock
deriving DecidableEq, Repr, Inhabited

/-- The block-name targets of a terminator, as exposed by the
`llvm_ir_analysis` control-flow graph (`Ret` has only the synthetic `Return`
node as successor, which `get_successors` filters out). -/
def termTargets : Terminator → List LlvmName
  | .ret _ => []
  | .br d => [d]
  | .condBr t f => [t, f]
  | .invoke _ _ _ r e => [r, e]
  | .otherTerm => []

/-! ## Global context (`context.rs`, `option.rs`, `summary.rs`) -/

/-- A summary cache key: `(function name, per-argument state vector)`. -/
abbrev SummaryKey := String × List (Option MemoryState)

/-- A summary: `(end_state, ret_state)`. -/
abbrev Summary := BlockState × MemoryState

/-- The global analysis context.  `demangle` stands for
`utils::demangle_name`; `utils.rs` is not part of the analysed sources and
the specification (§1, §6) treats symbol demangling as an external
collaborator, so the demangler is a parameter of the context. -/
structure GlobalContext where
  functions : List (String × LFunction)
  summaryCache : List (SummaryKey × Summary)
  ffiFunctions : List String
  diagnoses : List Diagnosis
  demangle : String → String

namespace GlobalContext

/-- `GlobalContext.functions.get(name).cloned()` (`BlockVisitor::get_llvm_ir`). -/
def getLlvmIr (ctx : GlobalContext) (funcName : String) : Option LFunction :=
  mapFind? ctx.functions funcName

/-- `BlockVisitor::is_ffi_function`: membership of the raw symbol in the
caller-supplied list of declared foreign functions. -/
def isFfiFunction (ctx : GlobalContext) (funcName : String) : Bool :=
  ctx.ffiFunctions.contains funcName

end GlobalContext

/-- `BlockVisitor::get_function_type`: the FFI-list test is evaluated first;
only when it fails is `KnownNames::get_type` consulted, on the demangled
name. -/
def getFunctionType (ctx : GlobalContext) (funcName : String) : KnownNameType :=
  if ctx.isFfiFunction funcName then .FFISink
  else KnownNames.get_type (ctx.demangle funcName)

/-! ## The block visitor (`block_visitor.rs`) -/

/-- The `Display` rendering of `llvm_ir::Name` used in diagnosis messages. -/
def nameToString : LlvmName → String
  | .str s => "%" ++ s
  | .num n => "%" ++ toString n

/-- `BlockVisitor::generate_diagnosis`: build a `Diagnosis` for the enclosing
function (demangled) and insert it into the global diagnosis set. -/
def generateDiagnosis (ctx : GlobalContext) (enclosing : String) (bugInfo : BugInfo)
    (seriousness : Seriousness) : GlobalContext :=
  { ctx with diagnoses := setInsert ctx.diagnoses ⟨seriousness, bugInfo, ctx.demangle enclosing⟩ }

/-- `BlockVisitor::handle_intrinsic`, translated arm by arm.  `none` models a
panic: the `assert!` failures and the `arguments[0]`/`arguments[1]` index
panics of the Rust code. -/
def handle_intrinsic (st : BlockState) (intrinsic : Intrinsic) (arguments : List Operand)
    (dest : Option LlvmName) : Option BlockState :=
  match intrinsic with
  | .Memcpy =>
    if arguments.length = 4 ∧ dest = none then
      match arguments[0]?, arguments[1]? with
      | some (Operand.local_ d), some (Operand.local_ s) => some (st.propagate_taint s d)
      | _, _ => some st
    else none
  | .IntoVec =>
    if arguments.length ≥ 2 then
      match arguments[0]?, arguments[1]? with
      | some (Operand.local_ des), some (Operand.local_ src) => some (st.propagate_taint src des)
      | _, _ => some st
    else none
  | .Deref =>
    match dest with
    | none => none
    | some d =>
      match arguments[0]? with
      | none => none
      | some (Operand.local_ n) => some (st.propagate_taint n d)
      | some _ => some st
  | .RcNew =>
    if arguments.length = 1 ∧ dest ≠ none then
      match dest, arguments[0]? with
      | some d, some (Operand.local_ n) => some (st.propagate_taint n d)
      | _, _ => some st
    else none
  | .Unwrap =>
    match dest with
    | none => some st
    | some d =>
      match arguments[0]? with
      | none => none
      | some (Operand.local_ n) => some (st.propagate_taint n d)
      | some _ => some st
  | .CStringIntoRaw =>
    if arguments.length = 2 ∧ dest ≠ none then
      match dest, arguments[0]? with
      | some d, some (Operand.local_ n) =>
        let st1 := if MemoryState.lt (st.get_memory_state n) .Forgotten then
          st.set_tainted n .Forgotten else st
        some (st1.propagate_taint n d)
      | _, _ => some st
    else none
  | .CStringAsCStr =>
    if arguments.length ≥ 1 ∧ dest ≠ none then
      match dest, arguments[0]? with
      | some d, some (Operand.local_ n) =>
        let st1 := if MemoryState.lt (st.get_memory_state n) .Borrowed then
          st.set_tainted n .Borrowed else st
        some (st1.propagate_taint n d)
      | _, _ => some st
    else none
  | .Forget =>
    if arguments.length ≥ 1 then
      match arguments[0]? with
      | some (Operand.local_ n) =>
        let st1 := if MemoryState.lt (st.get_memory_state n) .Forgotten then
          st.set_tainted n .Forgotten else st
        match dest with
        | some d => some (st1.propagate_taint n d)
        | none => some st1
      | _ => some st
    else some st
  | .BoxIntoRaw =>
    match dest with
    | none => none
    | some d =>
      match arguments[0]? with
      | none => none
      | some (Operand.local_ n) =>
        let st1 := if MemoryState.lt (st.get_memory_state n) .Forgotten then
          st.set_tainted n .Forgotten else st
        some (st1.propagate_taint n d)
      | some _ => some st
  | .VecIntoRawParts =>
    if arguments.length = 2 ∧ dest = none then
      match arguments[1]? with
      | some (Operand.local_ n) =>
        some (if MemoryState.lt (st.get_memory_state n) .Forgotten then
          st.set_tainted n .Forgotten else st)
      | _ => some st
    else none
  | .VecAsPtr =>
    if arguments.length ≥ 1 ∧ dest ≠ none then
      match dest, arguments[0]? with
      | some d, some (Operand.local_ n) =>
        let st1 := if MemoryState.lt (st.get_memory_state n) .Borrowed then
          st.set_tainted n .Borrowed else st
        some (st1.propagate_taint n d)
      | _, _ => some st
    else none
  | .VecFromRawParts =>
    if arguments.length ≥ 1 then
      match arguments[0]? with
      | some (Operand.local_ n) =>
        let st1 := if st.get_memory_state n = .Forgotten then
          st.set_tainted n .Tainted else st
        match dest with
        | some d => some (st1.propagate_taint n d)
        | none => some st1
      | _ => some st
    else none
  | .VecPush =>
    if arguments.length ≥ 2 then
      match arguments[0]?, arguments[1]? with
      | some (Operand.local_ des), some (Operand.local_ src) => some (st.propagate_taint src des)
      | _, _ => some st
    else none

/-- The per-argument diagnosis of the function-pointer call arm of
`analyze_call`/`analyze_invoke`. -/
def fnPointerArgDiag (enclosing : String) (st : BlockState) (ctx : GlobalContext)
    (arg : Operand) : GlobalContext :=
  match arg with
  | .local_ n =>
    match st.get_memory_state n with
    | .Tainted => generateDiagnosis ctx enclosing
        ⟨false, [.UseAfterFree], some "Call by function pointer, argument is `Tainted`."⟩ .Low
    | .Borrowed => generateDiagnosis ctx enclosing
        ⟨false, [.UseAfterFree], some "Call by function pointer, argument is `Borrowed`."⟩ .Low
    | .Forgotten => generateDiagnosis ctx enclosing
        ⟨false, [.MemoryLeakage], some "Call by function pointer, argument is `Forgotten`."⟩ .Medium
    | .Unknown => generateDiagnosis ctx enclosing
        ⟨false, [.UseAfterFree, .MemoryLeakage],
          some "Call by function pointer, argument is `Unknown`."⟩ .Medium
    | .Untainted => ctx
  | _ => ctx

/-- The per-argument diagnosis of the `FFISink`-with-unknown-bitcode arm of
`analyze_function` (pre-call argument states). -/
def ffiUnknownArgDiag (enclosing funcName : String) (st : BlockState) (ctx : GlobalContext)
    (arg : Operand) : GlobalContext :=
  match arg with
  | .local_ n =>
    match st.get_memory_state n with
    | .Unknown => generateDiagnosis ctx enclosing
        ⟨false, [.MemoryLeakage],
          some ("FFI " ++ funcName ++ " is unknown, argument is in state `Unknown`.")⟩ .Medium
    | .Borrowed => generateDiagnosis ctx enclosing
        ⟨false, [.UseAfterFree],
          some ("FFI " ++ funcName ++ " is unknown, argument is in state `Borrowed`.")⟩ .Low
    | .Forgotten => generateDiagnosis ctx enclosing
        ⟨false, [.MemoryLeakage],
          some ("FFI " ++ funcName ++ " is unknown, argument is in state `Forgotten`.")⟩ .Medium
    | .Tainted => generateDiagnosis ctx enclosing
        ⟨false, [.MemoryLeakage],
          some ("FFI " ++ funcName ++ " is unknown, argument is in state `Tainted`.")⟩ .Low
    | .Untainted => ctx
  | _ => ctx

/-- The per-argument diagnosis of the `FFISink`-with-known-bitcode arm of
`analyze_function` (post-call argument states). -/
def ffiKnownArgDiag (enclosing funcName : String) (st : BlockState) (ctx : GlobalContext)
    (arg : Operand) : GlobalContext :=
  match arg with
  | .local_ n =>
    match st.get_memory_state n with
    | .Unknown => generateDiagnosis ctx enclosing
        ⟨true, [.MemoryLeakage],
          some ("After FFI " ++ funcName ++ " finishes, argument " ++ nameToString n
            ++ " is still in state `Unknown`")⟩ .Medium
    | .Forgotten => generateDiagnosis ctx enclosing
        ⟨true, [.MemoryLeakage],
          some ("After FFI " ++ funcName ++ " finishes, argument " ++ nameToString n
            ++ " is still in state `Forgotten`")⟩ .Medium
    | _ => ctx
  | _ => ctx

/-- The type of the interprocedural summary computation that
`get_function_summary` performs on a cache miss: construct a nested
`FuncAnalysis` (`new_with_init`, which fails at the depth cap or for an
unknown symbol, yielding `some (ctx, none)`), iterate it to a fixpoint and
extract `(end_state, ret_state)`.  The outer `none` models a panic inside the
nested analysis. -/
abbrev Summarizer :=
  GlobalContext → String → BlockState → Nat → Option (GlobalContext × Option Summary)

/-- `BlockVisitor::get_function_summary`: consult the cache keyed by
`(function name, per-argument state vector)`; on a miss, build the callee's
initial `BlockState` by installing each `some` argument state on the
corresponding formal parameter, run the nested analysis at `depth + 1`, and
cache the resulting summary. -/
def getFunctionSummaryWith (summ : Summarizer) (ctx : GlobalContext) (depth : Nat)
    (function : LFunction) (init : List (Option MemoryState)) :
    Option (GlobalContext × Option Summary) :=
  let key : SummaryKey := (function.name, init)
  match mapFind? ctx.summaryCache key with
  | some summary => some (ctx, some summary)
  | none =>
    let initState := (init.zip function.parameters).foldl
      (fun st (p : Option MemoryState × Parameter) =>
        match p.1 with
        | some memState => st.set_tainted p.2.name memState
        | none => st) (∅ : BlockState)
    match summ ctx function.name initState (depth + 1) with
    | none => none
    | some (ctx', none) => some (ctx', none)
    | some (ctx', some summary) =>
      some ({ ctx' with summaryCache := mapInsert ctx'.summaryCache key summary }, some summary)

/-- `BlockVisitor::analyze_normal_function`: look up the callee's IR (return
unchanged when absent), build the per-argument state vector, fetch or compute
the summary, then install `ret_state` on the destination and the callee-end
parameter states on the caller-side argument names. -/
def analyzeNormalFunctionWith (summ : Summarizer) (depth : Nat) (ctx : GlobalContext)
    (st : BlockState) (funcName : String) (arguments : List Operand)
    (dest : Option LlvmName) : Option (GlobalContext × BlockState) :=
  match ctx.getLlvmIr funcName with
  | none => some (ctx, st)
  | some function =>
    let init := arguments.map (fun op =>
      match op with
      | .local_ n => some (st.get_memory_state n)
      | _ => none)
    match getFunctionSummaryWith summ ctx depth function init with
    | none => none
    | some (ctx', none) => some (ctx', st)
    | some (ctx', some (endState, retState)) =>
      let st1 := match dest with
        | some d => st.set_tainted d retState
        | none => st
      let calleeParams := function.parameters.map (·.name)
      let argMap := (arguments.map (fun op =>
        match op with
        | .local_ n => some n
        | _ => none)).zip calleeParams
      let st2 := argMap.foldl (fun acc (p : Option LlvmName × LlvmName) =>
        match p.1 with
        | some callerArg => acc.set_tainted callerArg (endState.get_memory_state p.2)
        | none => acc) st1
      some (ctx', st2)

/-- `BlockVisitor::analyze_function`: dispatch on the classification of the
callee symbol.  `enclosing` is the name of the function being analysed (used
for diagnosis attribution) and `depth` the current interprocedural depth. -/
def analyzeFunctionWith (summ : Summarizer) (enclosing : String) (depth : Nat)
    (ctx : GlobalContext) (st : BlockState) (funcName : String)
    (arguments : List Operand) (dest : Option LlvmName) :
    Option (GlobalContext × BlockState) :=
  match getFunctionType ctx funcName with
  | .FFISink =>
    match ctx.getLlvmIr funcName with
    | some _ =>
      match analyzeNormalFunctionWith summ depth ctx st funcName arguments dest with
      | none => none
      | some (ctx', st') =>
        some (arguments.foldl (ffiKnownArgDiag enclosing funcName st') ctx', st')
    | none =>
      some (arguments.foldl (ffiUnknownArgDiag enclosing funcName st) ctx, st)
  | .AllocSource =>
    match dest with
    | some d => some (ctx, st.set_tainted d .Tainted)
    | none => some (ctx, st)
  | .FreeSink =>
    if arguments.any (fun op =>
        match op with
        | .local_ n => st.is_tainted n
        | _ => false) then
      some (generateDiagnosis ctx enclosing
        ⟨true, [.UseAfterFree, .DoubleFree], some "Taint source meets taint sink."⟩
        .High, st)
    else
      some (ctx, st)
  | .Intrinsic i =>
    (handle_intrinsic st i arguments dest).map (fun st' => (ctx, st'))
  | .Normal => analyzeNormalFunctionWith summ depth ctx st funcName arguments dest
  | .Ignore => some (ctx, st)

/-- `BlockVisitor::analyze_instruction`: dispatch on the instruction kind.
The triple `(ctx, rs, st)` carries the global context, the enclosing
analysis' `ret_state` and the current `BlockState`. -/
def analyzeInstructionWith (summ : Summarizer) (enclosing : String) (depth : Nat)
    (ctx : GlobalContext) (rs : MemoryState) (st : BlockState) :
    Instruction → Option (GlobalContext × MemoryState × BlockState)
  | .load address dest =>
    match address with
    | .local_ n => some (ctx, rs, st.propagate_taint n dest)
    | _ => some (ctx, rs, st)
  | .store address value =>
    match address, value with
    | .local_ addressName, .local_ valueName =>
      some (ctx, rs, st.propagate_taint valueName addressName)
    | _, _ => some (ctx, rs, st)
  | .bitcast operand dest =>
    match operand with
    | .local_ n => some (ctx, rs, st.propagate_taint n dest)
    | _ => some (ctx, rs, st)
  | .phi incomingValues dest =>
    -- The loop sets the destination to the first tainted incoming operand's
    -- state and breaks; control then falls through to the trailing
    -- `set_tainted(dest, Untainted)` in every case.
    let st1 := match incomingValues.find? (fun p =>
        match p.1 with
        | .local_ n => st.is_tainted n
        | _ => false) with
      | some (.local_ n, _) => st.set_tainted dest (st.get_memory_state n)
      | _ => st
    some (ctx, rs, st1.set_tainted dest .Untainted)
  | .alloca allocatedTypeName dest =>
    match allocatedTypeName with
    | some tyName =>
      if strStartsWith tyName "alloc::vec::Vec" ∨ strStartsWith tyName "alloc::string::String"
          ∨ strContainsSub tyName "std::ffi::c_str::CString" then
        some (ctx, rs, st.set_tainted dest .Tainted)
      else some (ctx, rs, st)
    | none => some (ctx, rs, st)
  | .call function arguments dest =>
    match function with
    | .global funcName =>
      (analyzeFunctionWith summ enclosing depth ctx st funcName arguments dest).map
        (fun p => (p.1, rs, p.2))
    | .fnPointer =>
      some (arguments.foldl (fnPointerArgDiag enclosing st) ctx, rs, st)
    | .otherCallee => some (ctx, rs, st)
  | .otherInstr => some (ctx, rs, st)

/-- `BlockVisitor::analyze_terminator`: `Ret` records the returned SSA
value's current state as the enclosing analysis' `ret_state` (overwriting
it); `Invoke` behaves like a call with destination `invoke.result`; `CallBr`
and all remaining terminators are no-ops. -/
def analyzeTerminatorWith (summ : Summarizer) (enclosing : String) (depth : Nat)
    (ctx : GlobalContext) (rs : MemoryState) (st : BlockState) :
    Terminator → Option (GlobalContext × MemoryState × BlockState)
  | .ret returnOperand =>
    match returnOperand with
    | some (Operand.local_ n) => some (ctx, st.get_memory_state n, st)
    | _ => some (ctx, rs, st)
  | .invoke function arguments result _ _ =>
    match function with
    | .global funcName =>
      (analyzeFunctionWith summ enclosing depth ctx st funcName arguments (some result)).map
        (fun p => (p.1, rs, p.2))
    | .fnPointer =>
      some (arguments.foldl (fnPointerArgDiag enclosing st) ctx, rs, st)
    | .otherCallee => some (ctx, rs, st)
  | .br _ => some (ctx, rs, st)
  | .condBr _ _ => some (ctx, rs, st)
  | .otherTerm => some (ctx, rs, st)

/-- Fold `analyze_instruction` over a block's instruction list. -/
def analyzeInstrListWith (summ : Summarizer) (enclosing : String) (depth : Nat) :
    List Instruction → GlobalContext → MemoryState → BlockState →
    Option (GlobalContext × MemoryState × BlockState)
  | [], ctx, rs, st => some (ctx, rs, st)
  | i :: is, ctx, rs, st =>
    match analyzeInstructionWith summ enclosing depth ctx rs st i with
    | none => none
    | some (ctx', rs', st') => analyzeInstrListWith summ enclosing depth is ctx' rs' st'

/-- `BlockVisitor::analyze`: all instructions in order, then the terminator. -/
def visitBlockWith (summ : Summarizer) (enclosing : String) (depth : Nat)
    (ctx : GlobalContext) (rs : MemoryState) (pre : BlockState) (bb : LBasicBlock) :
    Option (GlobalContext × MemoryState × BlockState) :=
  match analyzeInstrListWith summ enclosing depth bb.instrs ctx rs pre with
  | none => none
  | some (ctx', rs', st') => analyzeTerminatorWith summ enclosing depth ctx' rs' st' bb.term

/-! ## The per-function worklist solver (`taint_analysis.rs`) -/

/-- `const MAX_ITERATION: u32 = 200;` -/
def MAX_ITERATION : Nat := 200

/-- `const MAX_DEPTH: u32 = 20;` -/
def MAX_DEPTH : Nat := 20

/-- The mutable per-function state of `FuncAnalysis` (the shared
`GlobalContext` is threaded separately). -/
structure FuncAnalysisState where
  initState : BlockState
  function : LFunction
  taintDomain : AbstractDomain
  retState : MemoryState
  depth : Nat
deriving Inhabited

/-- `FuncAnalysis::get_state_from_predecessors`: join `taint_domain[pred]`
over the CFG predecessors of `bb`, skipping blocks without a stored state.
The predecessors are the blocks whose terminator targets `bb`, enumerated in
function block order (the `llvm_ir_analysis` graph does not specify an
order; the model determinizes it, and lists each predecessor once). -/
def getStateFromPredecessors (fa : FuncAnalysisState) (bb : LBasicBlock) : BlockState :=
  let preds := fa.function.basicBlocks.filter (fun b => (termTargets b.term).contains bb.name)
  preds.foldl (fun res p =>
    match fa.taintDomain.get p.name with
    | some predState => res.union predState
    | none => res) (∅ : BlockState)

/-- `FuncAnalysis::get_successors`: resolve each CFG successor label of `bb`
back to its basic block.  The Rust code asserts that each label resolves; the
model is only applied to functions whose branch targets all exist. -/
def getSuccessors (fa : FuncAnalysisState) (bb : LBasicBlock) : List LBasicBlock :=
  (termTargets bb.term).filterMap (fun n => fa.function.basicBlocks.find? (fun b => b.name = n))

/-- The precondition used by `FuncAnalysis::analyze_basic_block`: the
`init_state` when `bb` is the function's first basic block, the predecessor
join otherwise. -/
def blockPre (fa : FuncAnalysisState) (bb : LBasicBlock) : BlockState :=
  if fa.function.basicBlocks.head? = some bb then fa.initState
  else getStateFromPredecessors fa bb

/-- `FuncAnalysis::analyze_basic_block`: run the block visitor on the
precondition and store the postcondition in `taint_domain[bb]`
unconditionally.  Also returns the pre/postcondition for the step log. -/
def analyzeBasicBlockWith (summ : Summarizer) (ctx : GlobalContext)
    (fa : FuncAnalysisState) (bb : LBasicBlock) :
    Option (GlobalContext × FuncAnalysisState × BlockState × BlockState) :=
  match visitBlockWith summ fa.function.name fa.depth ctx fa.retState (blockPre fa bb) bb with
  | none => none
  | some (ctx', rs', post) =>
    some (ctx', { fa with
      taintDomain := fa.taintDomain.insert bb.name post
      retState := rs' }, blockPre fa bb, post)

/-- Ghost record of one iteration of the worklist loop, for the theorems
about the solver (the Rust loop keeps no such value): the popped block, the
pre/postcondition of its analysis, `taint_domain[B]` before and after, the
recomputed predecessor join (`new_state`), the shadow value `old_state[B]`
before the step, and whether the step pushed `B`'s successors. -/
structure StepLog where
  blockName : LlvmName
  pre : BlockState
  post : BlockState
  domBefore : Option BlockState
  domAfterAtB : Option BlockState
  newState : BlockState
  oldBefore : Option BlockState
  fired : Bool
deriving DecidableEq, Repr, Inhabited

/-- The worklist loop of `FuncAnalysis::iterate_to_fixpoint`, with fuel
`MAX_ITERATION + 1`: the Rust loop increments `iteration` after each body and
breaks when `iteration > MAX_ITERATION`, so the body runs at most
`MAX_ITERATION + 1` times; fuel `0` is the break.  Each pop analyses the
block (which unconditionally overwrites `taint_domain[B]` with the
postcondition), then recomputes the predecessor join `new_state` and pushes
`B`'s successors exactly when the shadow map `old_state` has no entry for `B`
or `new_state` is not `<=` it, updating the shadow map to `new_state`. -/
def solverLoopWith (summ : Summarizer) :
    Nat → GlobalContext → FuncAnalysisState → AbstractDomain → List LBasicBlock →
    List StepLog → Option (GlobalContext × FuncAnalysisState × AbstractDomain × List StepLog)
  | 0, ctx, fa, old, _, logs => some (ctx, fa, old, logs)
  | _ + 1, ctx, fa, old, [], logs => some (ctx, fa, old, logs)
  | n + 1, ctx, fa, old, bb :: rest, logs =>
    match analyzeBasicBlockWith summ ctx fa bb with
    | none => none
    | some (ctx', fa', pre, post) =>
      let newState := getStateFromPredecessors fa' bb
      let oldB := old.get bb.name
      let fired := match oldB with
        | none => true
        | some o => ! (BlockState.le newState o)
      let log : StepLog := {
        blockName := bb.name
        pre := pre
        post := post
        domBefore := fa.taintDomain.get bb.name
        domAfterAtB := fa'.taintDomain.get bb.name
        newState := newState
        oldBefore := oldB
        fired := fired }
      if fired then
        solverLoopWith summ n ctx' fa' (old.insert bb.name newState)
          (rest ++ getSuccessors fa' bb) (logs ++ [log])
      else
        solverLoopWith summ n ctx' fa' old rest (logs ++ [log])

/-- `FuncAnalysis::iterate_to_fixpoint`: seed the shadow map with a clone of
the current `taint_domain`, the worklist with all basic blocks, and run the
loop. -/
def iterateToFixpointWith (summ : Summarizer) (ctx : GlobalContext)
    (fa : FuncAnalysisState) :
    Option (GlobalContext × FuncAnalysisState × AbstractDomain × List StepLog) :=
  solverLoopWith summ (MAX_ITERATION + 1) ctx fa fa.taintDomain fa.function.basicBlocks []

/-- `FuncAnalysis::get_state_after_call`: join `taint_domain[B]` over all
blocks whose terminator is a `Ret`. -/
def get_state_after_call (fa : FuncAnalysisState) : BlockState :=
  fa.function.basicBlocks.foldl (fun result bb =>
    match bb.term with
    | .ret _ =>
      match fa.taintDomain.get bb.name with
      | some st => result.union st
      | none => result
    | _ => result) (∅ : BlockState)

/-- `FuncAnalysis::new_with_init`: fail at the depth cap (`depth >=
MAX_DEPTH`) or when the symbol has no known IR; otherwise build a fresh
per-function analysis state at the given depth. -/
def new_with_init (ctx : GlobalContext) (funcName : String) (init : BlockState)
    (depth : Nat) : Option FuncAnalysisState :=
  if depth ≥ MAX_DEPTH then none
  else
    match ctx.getLlvmIr funcName with
    | some f => some {
        initState := init
        function := f
        taintDomain := ⟨[]⟩
        retState := .Untainted
        depth := depth }
    | none => none

/-- The interprocedural knot: the summary computation at recursion fuel `n`
runs the solver whose nested calls use fuel `n - 1`.  The Rust recursion is
bounded by the `depth >= MAX_DEPTH` test in `new_with_init` (depth grows by
one per nesting), so any fuel of at least `MAX_DEPTH` makes the fuel-0 branch
unreachable; it conservatively behaves like the depth cap (`no summary`). -/
def computeSummary : Nat → Summarizer
  | 0 => fun ctx _ _ _ => some (ctx, none)
  | n + 1 => fun ctx funcName init depth =>
    match new_with_init ctx funcName init depth with
    | none => some (ctx, none)
    | some fa =>
      match iterateToFixpointWith (computeSummary n) ctx fa with
      | none => none
      | some (ctx', fa', _, _) =>
        some (ctx', some (get_state_after_call fa', fa'.retState))

/-- Run one `FuncAnalysis` to its fixpoint with full recursion fuel. -/
def runFuncAnalysis (ctx : GlobalContext) (fa : FuncAnalysisState) :
    Option (GlobalContext × FuncAnalysisState × AbstractDomain × List StepLog) :=
  iterateToFixpointWith (computeSummary MAX_DEPTH) ctx fa

/-! ## Specification-side definitions

These definitions follow the wording of the specification claims (not the
source); they are compared against the source-derived definitions above. -/

/-- Spec-side classification order as claimed: AllocSource, FreeSink, Ignore,
Intrinsic, FFISink, Normal, first match winning (the FFI-list test on the raw
symbol, the other tests on the demangled name, as in the respective source
predicates). -/
def claimedClassify (ctx : GlobalContext) (funcName : String) : KnownNameType :=
  let d := ctx.demangle funcName
  if KnownNames.is_alloc_source d then .AllocSource
  else if KnownNames.is_free_sink d then .FreeSink
  else if KnownNames.should_ignore d then .Ignore
  else
    match KnownNames.get_intrinsic d with
    | some i => .Intrinsic i
    | none =>
      if ctx.isFfiFunction funcName then .FFISink
      else .Normal

/-- Spec-side classification as amended: the FFI-list test is evaluated
first; among the remaining rules the order AllocSource, FreeSink, Ignore,
Intrinsic, Normal applies to the demangled name. -/
def amendedClassify (ctx : GlobalContext) (funcName : String) : KnownNameType :=
  if ctx.isFfiFunction funcName then .FFISink
  else
    let d := ctx.demangle funcName
    if KnownNames.is_alloc_source d then .AllocSource
    else if KnownNames.is_free_sink d then .FreeSink
    else if KnownNames.should_ignore d then .Ignore
    else
      match KnownNames.get_intrinsic d with
      | some i => .Intrinsic i
      | none => .Normal

/-- Spec-side (claim C3): the function-level `ret_state` as the least upper
bound, over all return blocks returning an SSA value, of the returned value's
state in that block's stored `BlockState`. -/
def claimedRetStateLub (f : LFunction) (dom : AbstractDomain) : MemoryState :=
  f.basicBlocks.foldl (fun acc bb =>
    match bb.term with
    | .ret (some (.local_ n)) =>
      acc.union (((dom.get bb.name).getD (∅ : BlockState)).get_memory_state n)
    | _ => acc) .Untainted

/-- Spec-side (claim C8, as amended): the per-argument diagnosis table for a
foreign call with absent bitcode — Tainted yields MemoryLeakage at Low,
Borrowed yields UseAfterFree at Low, Forgotten yields MemoryLeakage at
Medium, Unknown yields MemoryLeakage at Medium; an Untainted or non-SSA
argument yields nothing; every diagnosis records `ffiKnown = false`. -/
def amendedFfiAbsentStep (enclosing funcName : String) (st : BlockState)
    (demangle : String → String) (ds : List Diagnosis) (arg : Operand) : List Diagnosis :=
  match arg with
  | .local_ n =>
    match st.get_memory_state n with
    | .Tainted => setInsert ds ⟨.Low,
        ⟨false, [.MemoryLeakage],
          some ("FFI " ++ funcName ++ " is unknown, argument is in state `Tainted`.")⟩,
        demangle enclosing⟩
    | .Borrowed => setInsert ds ⟨.Low,
        ⟨false, [.UseAfterFree],
          some ("FFI " ++ funcName ++ " is unknown, argument is in state `Borrowed`.")⟩,
        demangle enclosing⟩
    | .Forgotten => setInsert ds ⟨.Medium,
        ⟨false, [.MemoryLeakage],
          some ("FFI " ++ funcName ++ " is unknown, argument is in state `Forgotten`.")⟩,
        demangle enclosing⟩
    | .Unknown => setInsert ds ⟨.Medium,
        ⟨false, [.MemoryLeakage],
          some ("FFI " ++ funcName ++ " is unknown, argument is in state `Unknown`.")⟩,
        demangle enclosing⟩
    | .Untainted => ds
  | _ => ds

/-! ## Concrete example inputs used by the theorems -/

/-- An empty context (no functions, no declared FFI symbols), with the
identity demangler. -/
def exCtx : GlobalContext := ⟨[], [], [], [], id⟩

/-- A context declaring `free` as a foreign function. -/
def exCtxFfiFree : GlobalContext := ⟨[], [], ["free"], [], id⟩

/-- A context declaring `c_func` as a foreign function (with no bitcode). -/
def exCtxFfi : GlobalContext := ⟨[], [], ["c_func"], [], id⟩

/-- A state in which `%1` is `Tainted`. -/
def exTaintedState : BlockState := ⟨[(⟨[.num 1]⟩, .Tainted)]⟩

/-- A state in which `%1` is `Unknown`. -/
def exUnknownState : BlockState := ⟨[(⟨[.num 1]⟩, .Unknown)]⟩

/-- Claim C2 example: block `0` (entry) branches to block `1`, which taints
`%1` via an `alloca` of a `Vec` type and branches back to block `0`. -/
def p2BlockA : LBasicBlock := ⟨.num 0, [], .br (.num 1)⟩

def p2BlockC : LBasicBlock :=
  ⟨.num 1, [.alloca (some "alloc::vec::Vec<i32>") (.num 1)], .br (.num 0)⟩

def p2Func : LFunction := ⟨"p2", [], [p2BlockA, p2BlockC]⟩

def p2Fa : FuncAnalysisState := ⟨∅, p2Func, ⟨[]⟩, .Untainted, 1⟩

/-- The step logs of the solver on the claim C2 example. -/
def p2Logs : List StepLog :=
  ((runFuncAnalysis exCtx p2Fa).map (fun r => r.2.2.2)).getD []

/-- Claim C3 example: the entry block makes `%1` `Borrowed` (Vec `alloca`
then `as_ptr`) and `%2` `Forgotten` (`alloca` then `forget`), then branches
to two return blocks returning `%1` and `%2` respectively. -/
def p3BlockA : LBasicBlock := ⟨.num 0,
  [.alloca (some "alloc::vec::Vec<i32>") (.num 1),
   .alloca (some "alloc::vec::Vec<i32>") (.num 2),
   .call (.global "alloc::vec::Vec<T,A>::as_ptr") [.local_ (.num 1)] (some (.num 3)),
   .call (.global "core::mem::forget") [.local_ (.num 2)] none],
  .condBr (.num 1) (.num 2)⟩

def p3BlockB : LBasicBlock := ⟨.num 1, [], .ret (some (.local_ (.num 1)))⟩

def p3BlockC : LBasicBlock := ⟨.num 2, [], .ret (some (.local_ (.num 2)))⟩

def p3Func : LFunction := ⟨"p3", [], [p3BlockA, p3BlockB, p3BlockC]⟩

def p3Fa : FuncAnalysisState := ⟨∅, p3Func, ⟨[]⟩, .Untainted, 1⟩

/-- Claim C9 example: 202 trivial basic blocks with no edges; the initial
worklist already holds more blocks than the loop may process. -/
def p202Func : LFunction :=
  ⟨"p202", [], (List.range 202).map (fun i => ⟨.num i, [], .otherTerm⟩)⟩

def p202Fa : FuncAnalysisState := ⟨∅, p202Func, ⟨[]⟩, .Untainted, 1⟩

/-- Spec-side (claim C2, as amended): a worklist step pushes the popped
block's successors exactly when the shadow map had no record for the block,
or the freshly recomputed predecessor join is not `<=` the recorded one. -/
def amendedFiredSpec (log : StepLog) : Bool :=
  match log.oldBefore with
  | none => true
  | some o => ! (BlockState.le log.newState o)

/-- The amended per-step solver contract (claim C2): successors are pushed
according to `amendedFiredSpec`, and `taint_domain[B]` is overwritten with
the block's postcondition on every pop, unconditionally. -/
def StepLogOk (log : StepLog) : Prop :=
  log.fired = amendedFiredSpec log ∧ log.domAfterAtB = some log.post

/-- Claim C7 example: a call to `free` (a FreeSink) with the tainted `%1`. -/
def freeSinkRun : Option (GlobalContext × BlockState) :=
  analyzeFunctionWith (computeSummary MAX_DEPTH) "encl" 1 exCtx exTaintedState "free"
    [.local_ (.num 1)] none

def freeSinkRunDiags : List Diagnosis :=
  (freeSinkRun.map (fun p => p.1.diagnoses)).getD []

/-- Claim C8 example: a call to the declared foreign `c_func` (no bitcode)
with `%1` in state `Unknown`. -/
def ffiAbsentRun : Option (GlobalContext × BlockState) :=
  analyzeFunctionWith (computeSummary MAX_DEPTH) "encl" 1 exCtxFfi exUnknownState "c_func"
    [.local_ (.num 1)] none

def ffiAbsentRunDiags : List Diagnosis :=
  (ffiAbsentRun.map (fun p => p.1.diagnoses)).getD []

/-- Two allocation classes are disjoint: they share no name. -/
def AllocDisjoint (a b : Allocation) : Prop :=
  ∀ v, v ∈ a.set → v ∉ b.set

instance (a b : Allocation) : Decidable (AllocDisjoint a b) := by
  unfold AllocDisjoint
  infer_instance

/-- Claim C5's invariant (I1): the allocation classes present in a
`BlockState` are pairwise disjoint. -/
def PairwiseDisjointClasses (st : BlockState) : Prop :=
  st.state.Pairwise (fun p q => AllocDisjoint p.1 q.1)

instance (st : BlockState) : Decidable (PairwiseDisjointClasses st) := by
  unfold PairwiseDisjointClasses
  infer_instance

/-- Well-formedness of a `BlockState` used by the amended claims C4/C5:
every class is non-empty (the documented `Allocation` invariant) and the
classes are pairwise disjoint (invariant I1). -/
def WFClasses (st : BlockState) : Prop :=
  (∀ p ∈ st.state, p.1.set ≠ []) ∧ PairwiseDisjointClasses st

/-- The cross-operand hypothesis of the amended claims C4/C5: every class of
`A` and every class of `B` are either equal or disjoint. -/
def CrossOk (A B : BlockState) : Prop :=
  ∀ p ∈ A.state, ∀ q ∈ B.state, p.1 = q.1 ∨ AllocDisjoint p.1 q.1

/-- The state of class `c` in `B` (`Untainted` when `c` is not a class of
`B`). -/
def classStateIn (B : BlockState) (c : Allocation) : MemoryState :=
  (mapFind? B.state c).getD .Untainted

/-- Whether `c` is (exactly) one of the classes of `A`. -/
def hasClass (A : BlockState) (c : Allocation) : Bool :=
  A.state.any (fun p => p.1 = c)

/-- The per-entry image used by `goodUnion`: join the entry's state with
`B`'s state of the same class. -/
def unionImage (B : BlockState) : (Allocation × MemoryState) → (Allocation × MemoryState) :=
  fun p => (p.1, p.2.union (classStateIn B p.1))

/-- The reference value of `BlockState::union` under the amended hypotheses:
the classes of `A` in order, each with its state joined with `B`'s state of
the same class, followed by the classes of `B` that are not classes of `A`. -/
def goodUnion (A B : BlockState) : BlockState :=
  ⟨A.state.map (unionImage B) ++ B.state.filter (fun q => ¬ hasClass A q.1)⟩

/-- The binding that the flattening loop of `BlockState::partial_cmp` leaves
for `v`: the state of the last class (in map order) containing `v`. -/
def lastClassVal : List (Allocation × MemoryState) → LlvmName → Option MemoryState
  | [], _ => none
  | p :: rest, v =>
    match lastClassVal rest v with
    | some s => some s
    | none => if v ∈ p.1.set then some p.2 else none

/-- The FreeSink diagnosis of `analyze_function` (exact message string). -/
def freeSinkDiagnosis (functionName : String) : Diagnosis :=
  ⟨.High, ⟨true, [.UseAfterFree, .DoubleFree], some "Taint source meets taint sink."⟩,
    functionName⟩

/-- Spec-side (claim C7, as amended): the context after a FreeSink call —
the diagnosis set gains `freeSinkDiagnosis` exactly when some SSA-valued
argument is tainted, and nothing else changes. -/
def freeSinkResultCtx (ctx : GlobalContext) (enclosing : String) (st : BlockState)
    (args : List Operand) : GlobalContext :=
  if args.any (fun op => match op with
      | Operand.local_ n => st.is_tainted n
      | _ => false) then
    { ctx with diagnoses := setInsert ctx.diagnoses (freeSinkDiagnosis (ctx.demangle enclosing)) }
  else ctx

/-- Spec-side (claim C8, as amended): the context after a foreign call with
absent bitcode — one table diagnosis per SSA-valued argument. -/
def ffiAbsentResultCtx (ctx : GlobalContext) (enclosing funcName : String) (st : BlockState)
    (args : List Operand) : GlobalContext :=
  let ds := args.foldl (amendedFfiAbsentStep enclosing funcName st ctx.demangle) ctx.diagnoses
  { ctx with diagnoses := ds }

instance (st : BlockState) : Decidable (WFClasses st) := by
  unfold WFClasses PairwiseDisjointClasses
  infer_instance

instance (A B : BlockState) : Decidable (CrossOk A B) := by
  unfold CrossOk
  infer_instance

/-- The name itself together with all its cumulative dot-prefixes: exactly
the names that `set_tainted` adds to the class of `var` via `expandName`. -/
def prefixNames (var : LlvmName) : List LlvmName :=
  match var with
  | .str s => .str s :: (dottedParts s).map LlvmName.str
  | .num n => [.num n]

/-- The side condition of the amended claim C5 for `set_tainted`: every
dot-prefix of the name (and the name itself) is either untracked in the
state or already a member of the name's own class. -/
def SetTaintedPrefixOk (st : BlockState) (var : LlvmName) : Prop :=
  ∀ w ∈ prefixNames var,
    (∀ p ∈ st.state, w ∉ p.1.set) ∨ ∃ c ∈ (st.get_allocation var).toList, w ∈ c.set

instance (st : BlockState) (var : LlvmName) : Decidable (SetTaintedPrefixOk st var) := by
  unfold SetTaintedPrefixOk
  infer_instance

/-- Concrete well-formed operand for the C4/C5 witnesses. -/
def exW1 : BlockState := ⟨[(⟨[.num 1, .num 2]⟩, .Tainted)]⟩

/-- Concrete well-formed operand for the C4/C5 witnesses, sharing the class
`{1, 2}` with `exW1` and owning the extra class `{3}`. -/
def exW2 : BlockState := ⟨[(⟨[.num 1, .num 2]⟩, .Borrowed), (⟨[.num 3]⟩, .Tainted)]⟩

/-- Concrete state for the C5 witness on `propagate_taint`/`set_tainted`. -/
def exW3 : BlockState := ⟨[(⟨[.num 1]⟩, .Tainted), (⟨[.num 2]⟩, .Borrowed)]⟩

/-! # Theorems -/

set_option maxRecDepth 100000

/-! ## Association-list lemmas -/

theorem find?_replaceEntry_self {κ α : Type _} [DecidableEq κ] (m : List (κ × α)) (k : κ)
    (v : α) (h : m.any (fun p => p.1 = k) = true) :
    (m.map (fun p => if p.1 = k then (k, v) else p)).find? (fun p => p.1 = k)
      = some (k, v) := by
  induction m with
  | nil => simp at h
  | cons p m ih =>
    by_cases hp : p.1 = k
    · rw [List.map_cons, if_pos hp, List.find?_cons_of_pos _ (by simp)]
    · rw [List.map_cons, if_neg hp, List.find?_cons_of_neg _ (by simpa using hp)]
      exact ih (by simpa [hp] using h)

theorem find?_eq_none_of_not_any {κ α : Type _} [DecidableEq κ] (m : List (κ × α)) (k : κ)
    (h : m.any (fun p => p.1 = k) = false) :
    m.find? (fun p => p.1 = k) = none := by
  rw [List.find?_eq_none]
  intro x hx hxk
  have : m.any (fun p => p.1 = k) = true := List.any_eq_true.mpr ⟨x, hx, hxk⟩
  rw [h] at this
  exact Bool.false_ne_true this

theorem mapFind?_mapInsert_self {κ α : Type _} [DecidableEq κ] (m : List (κ × α)) (k : κ)
    (v : α) : mapFind? (mapInsert m k v) k = some v := by
  unfold mapInsert mapFind?
  cases h : m.any (fun p => p.1 = k) with
  | true =>
    rw [if_pos rfl, find?_replaceEntry_self m k v h]
    rfl
  | false =>
    rw [if_neg (by simp), List.find?_append, find?_eq_none_of_not_any m k h]
    simp [List.find?]

theorem AbstractDomain.get_insert_self (d : AbstractDomain) (k : LlvmName) (st : BlockState) :
    (d.insert k st).get k = some st :=
  mapFind?_mapInsert_self d.map k st

/-! ## Solver-loop lemmas -/

theorem analyzeBasicBlockWith_domAfter (summ : Summarizer) (ctx : GlobalContext)
    (fa : FuncAnalysisState) (bb : LBasicBlock)
    (r : GlobalContext × FuncAnalysisState × BlockState × BlockState)
    (h : analyzeBasicBlockWith summ ctx fa bb = some r) :
    r.2.1.taintDomain.get bb.name = some r.2.2.2 := by
  unfold analyzeBasicBlockWith at h
  cases hv : visitBlockWith summ fa.function.name fa.depth ctx fa.retState
      (blockPre fa bb) bb with
  | none => rw [hv] at h; exact absurd h (by simp)
  | some t =>
    obtain ⟨ctx2, rs2, post2⟩ := t
    rw [hv] at h
    cases h
    exact AbstractDomain.get_insert_self _ _ _

theorem solverLoopWith_logs_length (summ : Summarizer) :
    ∀ (fuel : Nat) (ctx : GlobalContext) (fa : FuncAnalysisState) (old : AbstractDomain)
      (wl : List LBasicBlock) (logs : List StepLog)
      (res : GlobalContext × FuncAnalysisState × AbstractDomain × List StepLog),
      solverLoopWith summ fuel ctx fa old wl logs = some res →
      res.2.2.2.length ≤ logs.length + fuel := by
  intro fuel
  induction fuel with
  | zero =>
    intro ctx fa old wl logs res h
    cases wl <;> simp only [solverLoopWith, Option.some_inj] at h <;> subst h <;> simp
  | succ n ih =>
    intro ctx fa old wl logs res h
    cases wl with
    | nil =>
      simp only [solverLoopWith, Option.some_inj] at h
      subst h
      simp only [List.length_nil]
      omega
    | cons bb rest =>
      simp only [solverLoopWith] at h
      cases hab : analyzeBasicBlockWith summ ctx fa bb with
      | none => rw [hab] at h; exact absurd h (by simp)
      | some t =>
        obtain ⟨ctx2, fa2, pre2, post2⟩ := t
        rw [hab] at h
        dsimp only at h
        split at h <;>
        · have := ih _ _ _ _ _ _ h
          simp only [List.length_append, List.length_singleton] at this
          omega

theorem solverLoopWith_stepLogOk (summ : Summarizer) :
    ∀ (fuel : Nat) (ctx : GlobalContext) (fa : FuncAnalysisState) (old : AbstractDomain)
      (wl : List LBasicBlock) (logs : List StepLog)
      (res : GlobalContext × FuncAnalysisState × AbstractDomain × List StepLog),
      solverLoopWith summ fuel ctx fa old wl logs = some res →
      (∀ log ∈ logs, StepLogOk log) →
      ∀ log ∈ res.2.2.2, StepLogOk log := by
  intro fuel
  induction fuel with
  | zero =>
    intro ctx fa old wl logs res h hok
    cases wl <;> simp only [solverLoopWith, Option.some_inj] at h <;> subst h <;>
      exact hok
  | succ n ih =>
    intro ctx fa old wl logs res h hok
    cases wl with
    | nil =>
      simp only [solverLoopWith, Option.some_inj] at h
      subst h
      exact hok
    | cons bb rest =>
      simp only [solverLoopWith] at h
      cases hab : analyzeBasicBlockWith summ ctx fa bb with
      | none => rw [hab] at h; exact absurd h (by simp)
      | some t =>
        obtain ⟨ctx2, fa2, pre2, post2⟩ := t
        rw [hab] at h
        dsimp only at h
        have hdom := analyzeBasicBlockWith_domAfter summ ctx fa bb _ hab
        split at h <;>
        · refine ih _ _ _ _ _ _ h (fun log hlog => ?_)
          rcases List.mem_append.mp hlog with hmem | hmem
          · exact hok log hmem
          · rw [List.mem_singleton.mp hmem]
            exact ⟨rfl, hdom⟩

/-! ## Claims C2 (amended), C9 (amended) -/

/-- **Claim C2** (as amended).  For every popped block `B`, the solver
computes `post = BlockVisitor(pre, B).analyze()` with `pre` the `init_state`
for the entry block and the predecessor join otherwise, and it *always*
overwrites `domain[B]` with `post`; successors are appended to the back of
the worklist exactly when a separate shadow map (recording, at `B`'s last
append, the predecessor join recomputed *after* the block's analysis) has no
entry for `B`, or the freshly recomputed predecessor join is not `<=` that
record.  Every step log of a solver run satisfies this contract. -/
theorem claim2_solver_amended :
    ∀ (summ : Summarizer) (ctx : GlobalContext) (fa : FuncAnalysisState),
      ∀ log ∈ ((iterateToFixpointWith summ ctx fa).map (fun r => r.2.2.2)).getD [],
        StepLogOk log := by
  intro summ ctx fa log hmem
  cases h : iterateToFixpointWith summ ctx fa with
  | none => rw [h] at hmem; simp at hmem
  | some res =>
    rw [h] at hmem
    simp only [Option.map_some', Option.getD_some] at hmem
    exact solverLoopWith_stepLogOk summ _ ctx fa _ _ _ res h (by simp) log hmem

/-- **Claim C9** (as amended).  The worklist loop performs at most
`MAX_ITERATION + 1 = 201` iterations (the Rust loop increments its counter
after the body and only then compares, so the cap is one more than
`MAX_ITERATION`), stopping earlier when the worklist empties; and
constructing a nested `FuncAnalysis` through `new_with_init` fails (returns
`None`, so no deeper analysis runs) whenever the call depth reaches
`MAX_DEPTH = 20`. -/
theorem claim9_caps_amended :
    (∀ (summ : Summarizer) (ctx : GlobalContext) (fa : FuncAnalysisState),
      ((iterateToFixpointWith summ ctx fa).map (fun r => r.2.2.2.length)).getD 0
        ≤ MAX_ITERATION + 1)
    ∧ (∀ (ctx : GlobalContext) (funcName : String) (init : BlockState) (d : Nat),
      new_with_init ctx funcName init (MAX_DEPTH + d) = none) := by
  constructor
  · intro summ ctx fa
    cases h : iterateToFixpointWith summ ctx fa with
    | none => simp
    | some res =>
      simp only [Option.map_some', Option.getD_some]
      have := solverLoopWith_logs_length summ (MAX_ITERATION + 1) ctx fa fa.taintDomain
        fa.function.basicBlocks [] res h
      simpa using this
  · intro ctx funcName init d
    simp [new_with_init, Nat.le_add_right]

/-! ## Claim C1 — the `phi` transfer function -/

/-- **Claim C1** (code bug).  The claim states that `analyze_phi` sets the
destination to the state of the first tainted incoming operand, and to
`Untainted` only when no incoming operand is tainted.  In the code, the
`break` after the first tainted operand still falls through to the trailing
`set_tainted(dest, Untainted)` (whose own comment says it is only for the
all-untainted case), so the destination is always cleared: on a `phi` with
the tainted incoming `%1`, the resulting state leaves `%2` `Untainted` (the
whole transfer is the identity here) even though `%1` is tainted. -/
theorem claim1_phi_destination_cleared :
    analyzeInstructionWith (computeSummary MAX_DEPTH) "f" 1 exCtx .Untainted exTaintedState
      (.phi [(.local_ (.num 1), .num 10)] (.num 2))
      = some (exCtx, .Untainted, exTaintedState)
    ∧ exTaintedState.is_tainted (.num 1) = true
    ∧ exTaintedState.get_memory_state (.num 2) = .Untainted :=
  ⟨rfl, rfl, rfl⟩

/-! ## Claim C2 — the worklist trigger -/

/-- **Claim C2** (counterexample).  The claim states that successors are
appended exactly when `domain[B]` was missing or the freshly computed `post`
is not `<=` the stored `domain[B]`.  On the two-block loop `p2Func`, the
fourth pop processes block `0` with `taint_domain[0]` present and
`post <= taint_domain[0]` — yet the step fires (appends successors), because
the implementation compares the recomputed predecessor join against a
separate shadow map instead. -/
theorem claim2_trigger_counterexample :
    (p2Logs[3]?).map (fun l =>
        (l.blockName, l.fired, l.domBefore.map (fun d => BlockState.le l.post d)))
      = some (.num 0, true, some true) := by rfl

/-! ## Claim C3 — `ret_state` across several return blocks -/

/-- **Claim C3** (counterexample).  On `p3Func` (two return blocks returning
`%1 : Borrowed` and `%2 : Forgotten`), the recorded `ret_state` is
`Forgotten` — the value at the return block analysed last — while the claimed
least upper bound over all return blocks is `Unknown`. -/
theorem claim3_ret_state_not_lub_counterexample :
    ((runFuncAnalysis exCtx p3Fa).map (fun r =>
        (r.2.1.retState, claimedRetStateLub p3Func r.2.1.taintDomain)))
      = some (.Forgotten, .Unknown)
    ∧ MemoryState.Forgotten ≠ .Unknown :=
  ⟨by rfl, by decide⟩

/-- **Claim C3** (as amended).  Every analysis of a `Ret` terminator whose
operand is an SSA value *overwrites* the function-level `ret_state` with that
value's current state (so with several return blocks the recorded `ret_state`
is the one of the return block analysed last, not a least upper bound); a
`Ret` without an SSA operand leaves `ret_state` unchanged. -/
theorem claim3_ret_overwrite_amended :
    ∀ (summ : Summarizer) (enclosing : String) (depth : Nat) (ctx : GlobalContext)
      (rs : MemoryState) (st : BlockState) (n : LlvmName),
      analyzeTerminatorWith summ enclosing depth ctx rs st (.ret (some (.local_ n)))
        = some (ctx, st.get_memory_state n, st)
      ∧ analyzeTerminatorWith summ enclosing depth ctx rs st (.ret none)
        = some (ctx, rs, st) :=
  fun _ _ _ _ _ _ _ => ⟨rfl, rfl⟩

/-! ## Claim C6 — symbol classification order -/

/-- **Claim C6** (counterexample).  The claim puts the FFI-list rule fifth,
after AllocSource/FreeSink/Ignore/Intrinsic, so `free` should classify as
`FreeSink` even when declared foreign.  The implementation consults the
FFI list first: with `free` in the declared-foreign list, `get_function_type`
answers `FFISink`, while the claimed order answers `FreeSink`. -/
theorem claim6_classification_order_counterexample :
    getFunctionType exCtxFfiFree "free" = .FFISink
    ∧ claimedClassify exCtxFfiFree "free" = .FreeSink
    ∧ KnownNameType.FFISink ≠ KnownNameType.FreeSink :=
  ⟨rfl, rfl, by decide⟩

/-- **Claim C6** (as amended).  The FFI-list test is evaluated first; a
symbol in the caller-supplied foreign list is always `FFISink`.  Only when it
fails are the remaining rules evaluated, in the order AllocSource, FreeSink,
Ignore, Intrinsic, Normal, on the demangled name. -/
theorem claim6_classification_amended :
    ∀ (ctx : GlobalContext) (funcName : String),
      getFunctionType ctx funcName = amendedClassify ctx funcName :=
  fun _ _ => rfl

/-! ## Claim C7 — the FreeSink arm -/

/-- **Claim C7** (counterexample).  A FreeSink call with a tainted argument
emits exactly one High-severity `UseAfterFree`+`DoubleFree` diagnosis and
leaves the state unchanged — but its message is
`"Taint source meets taint sink."`, not the claimed
`"taint source meets taint sink"`. -/
theorem claim7_free_sink_message_counterexample :
    freeSinkRunDiags
      = [⟨.High, ⟨true, [.UseAfterFree, .DoubleFree],
          some "Taint source meets taint sink."⟩, "encl"⟩]
    ∧ (freeSinkRun.map (fun p => p.2)) = some exTaintedState
    ∧ ¬ ∃ d ∈ freeSinkRunDiags, d.bugInfo.msg = some "taint source meets taint sink" :=
  ⟨rfl, rfl, by decide⟩

/-! ## Claim C8 — FFISink with absent bitcode -/

/-- **Claim C8** (counterexample).  For an argument in state `Unknown`, the
claim expects a Medium diagnosis with bug kinds `UseAfterFree` and
`MemoryLeakage`; the implementation emits `MemoryLeakage` only. -/
theorem claim8_unknown_diagnosis_counterexample :
    ffiAbsentRunDiags
      = [⟨.Medium, ⟨false, [.MemoryLeakage],
          some "FFI c_func is unknown, argument is in state `Unknown`."⟩, "encl"⟩]
    ∧ ¬ ∃ d ∈ ffiAbsentRunDiags,
        d.bugInfo.possibleBugs = [BugType.UseAfterFree, BugType.MemoryLeakage] :=
  ⟨rfl, by decide⟩

/-! ## Claim C9 — the iteration cap -/

/-- **Claim C9** (counterexample).  The claim bounds the worklist loop by
`MAX_ITERATION = 200` iterations.  On a function with 202 trivial blocks the
loop body runs 201 times (the Rust loop increments `iteration` and only then
compares it with `MAX_ITERATION`, so the 201st pop is still processed). -/
theorem claim9_iteration_cap_counterexample :
    ((runFuncAnalysis exCtx p202Fa).map (fun r => r.2.2.2.length))
      = some (MAX_ITERATION + 1)
    ∧ MAX_ITERATION + 1 > 200 :=
  ⟨by rfl, by decide⟩

/-- Witness for `claim2_solver_amended`: the first step log of the solver on
`p2Func` satisfies the amended contract. -/
theorem claim2_solver_amended_witness :
    StepLogOk {
      blockName := .num 0
      pre := ∅
      post := ∅
      domBefore := none
      domAfterAtB := some ∅
      newState := ∅
      oldBefore := none
      fired := true } :=
  claim2_solver_amended (computeSummary MAX_DEPTH) exCtx p2Fa _ (by decide)

/-! ## Claim C7 (amended) — the FreeSink arm -/

/-- **Claim C7** (as amended).  For every call or invoke whose callee is
classified `FreeSink`: when at least one SSA-valued argument is tainted, a
High-severity `UseAfterFree`+`DoubleFree` diagnosis with the message
`"Taint source meets taint sink."` (capitalised, with a final period) is
inserted into the diagnosis set, and the `BlockState` is returned unchanged;
when no SSA-valued argument is tainted, the diagnoses and the state are both
unchanged. -/
theorem claim7_free_sink_amended (summ : Summarizer) (enclosing : String) (depth : Nat)
    (ctx : GlobalContext) (st : BlockState) (funcName : String) (args : List Operand)
    (dest : Option LlvmName) (h : getFunctionType ctx funcName = .FreeSink) :
    analyzeFunctionWith summ enclosing depth ctx st funcName args dest
      = some (freeSinkResultCtx ctx enclosing st args, st) := by
  unfold analyzeFunctionWith freeSinkResultCtx
  rw [h]
  dsimp only
  by_cases hc : (args.any (fun op => match op with
      | Operand.local_ n => st.is_tainted n
      | _ => false)) = true
  · simp only [if_pos hc]
    rfl
  · simp only [if_neg hc]

/-- Witness for `claim7_free_sink_amended` at a concrete FreeSink call with a
tainted argument. -/
theorem claim7_free_sink_amended_witness :
    getFunctionType exCtx "free" = KnownNameType.FreeSink
    ∧ analyzeFunctionWith (computeSummary MAX_DEPTH) "encl" 1 exCtx exTaintedState "free"
        [.local_ (.num 1)] none
      = some (freeSinkResultCtx exCtx "encl" exTaintedState [.local_ (.num 1)],
          exTaintedState) :=
  ⟨rfl, claim7_free_sink_amended (computeSummary MAX_DEPTH) "encl" 1 exCtx exTaintedState
    "free" [.local_ (.num 1)] none rfl⟩

/-! ## Claim C8 (amended) — FFISink with absent bitcode -/

theorem ffiUnknownArgDiag_eq (e f : String) (st : BlockState) (ctx : GlobalContext)
    (a : Operand) :
    ffiUnknownArgDiag e f st ctx a
      = { ctx with diagnoses := amendedFfiAbsentStep e f st ctx.demangle ctx.diagnoses a } := by
  cases a with
  | local_ n =>
    cases hm : st.get_memory_state n <;>
      simp [ffiUnknownArgDiag, amendedFfiAbsentStep, generateDiagnosis, hm]
  | constOp => rfl

theorem ffiUnknownArgDiag_foldl (e f : String) (st : BlockState) :
    ∀ (args : List Operand) (ctx : GlobalContext),
      args.foldl (ffiUnknownArgDiag e f st) ctx = ffiAbsentResultCtx ctx e f st args := by
  intro args
  induction args with
  | nil => intro ctx; rfl
  | cons a args ih =>
    intro ctx
    rw [List.foldl_cons, ffiUnknownArgDiag_eq, ih]
    rfl

/-- **Claim C8** (as amended).  For every call whose callee is classified
`FFISink` and whose bitcode is absent, one diagnosis per SSA-valued argument
is inserted into the diagnosis set according to the argument's pre-call
state: Tainted yields MemoryLeakage at Low; Borrowed yields UseAfterFree at
Low; Forgotten yields MemoryLeakage at Medium; Unknown yields MemoryLeakage
(only) at Medium; Untainted yields nothing; every diagnosis records that the
foreign callee's implementation was not analysed (`ffiKnown = false`).  The
state is returned unchanged. -/
theorem claim8_ffi_absent_diagnoses_amended (summ : Summarizer) (enclosing : String)
    (depth : Nat) (ctx : GlobalContext) (st : BlockState) (funcName : String)
    (args : List Operand) (dest : Option LlvmName)
    (h1 : getFunctionType ctx funcName = .FFISink)
    (h2 : ctx.getLlvmIr funcName = none) :
    analyzeFunctionWith summ enclosing depth ctx st funcName args dest
      = some (ffiAbsentResultCtx ctx enclosing funcName st args, st) := by
  unfold analyzeFunctionWith
  rw [h1]
  dsimp only
  rw [h2]
  dsimp only
  rw [ffiUnknownArgDiag_foldl]

/-- Witness for `claim8_ffi_absent_diagnoses_amended` at a concrete foreign
call with an argument in state `Unknown`. -/
theorem claim8_ffi_absent_diagnoses_amended_witness :
    getFunctionType exCtxFfi "c_func" = KnownNameType.FFISink
    ∧ exCtxFfi.getLlvmIr "c_func" = none
    ∧ analyzeFunctionWith (computeSummary MAX_DEPTH) "encl" 1 exCtxFfi exUnknownState
        "c_func" [.local_ (.num 1)] none
      = some (ffiAbsentResultCtx exCtxFfi "encl" "c_func" exUnknownState [.local_ (.num 1)],
          exUnknownState) :=
  ⟨rfl, rfl, claim8_ffi_absent_diagnoses_amended (computeSummary MAX_DEPTH) "encl" 1 exCtxFfi
    exUnknownState "c_func" [.local_ (.num 1)] none rfl rfl⟩

/-! ## Claim C10 — intrinsic assertion tolerance -/

/-- **Claim C10** (counterexample).  The claim says only `Unwrap` and
`Forget` tolerate a missing destination; but `VecPush` — neither of the two —
accepts a destination-less call with two SSA arguments without panicking. -/
theorem claim10_tolerance_counterexample :
    (Intrinsic.VecPush ≠ .Unwrap ∧ Intrinsic.VecPush ≠ .Forget)
    ∧ handle_intrinsic (∅ : BlockState) .VecPush [.local_ (.num 1), .local_ (.num 2)] none
        = some (∅ : BlockState) :=
  ⟨by decide, rfl⟩

/-- **Claim C10** (as amended).  `handle_intrinsic` panics (the model's
`none`) when: Memcpy lacks exactly four arguments or has a destination; RcNew
lacks exactly one argument or a destination; Deref, CStringIntoRaw,
CStringAsCStr, BoxIntoRaw or VecAsPtr lack a destination; VecIntoRawParts
lacks exactly two arguments or has a destination.  But the kinds tolerating a
missing destination are not only Unwrap and Forget: VecPush, IntoVec and
VecFromRawParts (given enough arguments) also accept a destination-less call,
and Forget additionally tolerates an empty argument list. -/
theorem claim10_intrinsic_asserts_amended :
    (∀ (st : BlockState) (args : List Operand) (dest : Option LlvmName),
      ¬(args.length = 4 ∧ dest = none) → handle_intrinsic st .Memcpy args dest = none)
    ∧ (∀ (st : BlockState) (args : List Operand) (dest : Option LlvmName),
      ¬(args.length = 1 ∧ dest ≠ none) → handle_intrinsic st .RcNew args dest = none)
    ∧ (∀ (st : BlockState) (args : List Operand),
      handle_intrinsic st .Deref args none = none)
    ∧ (∀ (st : BlockState) (args : List Operand),
      handle_intrinsic st .CStringIntoRaw args none = none)
    ∧ (∀ (st : BlockState) (args : List Operand),
      handle_intrinsic st .CStringAsCStr args none = none)
    ∧ (∀ (st : BlockState) (args : List Operand),
      handle_intrinsic st .BoxIntoRaw args none = none)
    ∧ (∀ (st : BlockState) (args : List Operand),
      handle_intrinsic st .VecAsPtr args none = none)
    ∧ (∀ (st : BlockState) (args : List Operand) (dest : Option LlvmName),
      ¬(args.length = 2 ∧ dest = none) → handle_intrinsic st .VecIntoRawParts args dest = none)
    ∧ (∀ (st : BlockState) (a b : Operand) (rest : List Operand),
      handle_intrinsic st .VecPush (a :: b :: rest) none ≠ none)
    ∧ (∀ (st : BlockState) (a b : Operand) (rest : List Operand),
      handle_intrinsic st .IntoVec (a :: b :: rest) none ≠ none)
    ∧ (∀ (st : BlockState) (a : Operand) (rest : List Operand),
      handle_intrinsic st .VecFromRawParts (a :: rest) none ≠ none)
    ∧ (∀ (st : BlockState) (args : List Operand),
      handle_intrinsic st .Unwrap args none = some st)
    ∧ (∀ (st : BlockState) (dest : Option LlvmName),
      handle_intrinsic st .Forget [] dest = some st) := by
  refine ⟨?_, ?_, ?_, ?_, ?_, ?_, ?_, ?_, ?_, ?_, ?_, ?_, ?_⟩
  · intro st args dest h
    unfold handle_intrinsic
    dsimp only
    rw [if_neg h]
  · intro st args dest h
    unfold handle_intrinsic
    dsimp only
    rw [if_neg h]
  · intro st args
    rfl
  · intro st args
    unfold handle_intrinsic
    dsimp only
    rw [if_neg (by simp)]
  · intro st args
    unfold handle_intrinsic
    dsimp only
    rw [if_neg (by simp)]
  · intro st args
    rfl
  · intro st args
    unfold handle_intrinsic
    dsimp only
    rw [if_neg (by simp)]
  · intro st args dest h
    unfold handle_intrinsic
    dsimp only
    rw [if_neg h]
  · intro st a b rest
    unfold handle_intrinsic
    dsimp only
    rw [if_pos (by simp only [List.length_cons]; omega)]
    cases a <;> cases b <;> simp
  · intro st a b rest
    unfold handle_intrinsic
    dsimp only
    rw [if_pos (by simp only [List.length_cons]; omega)]
    cases a <;> cases b <;> simp
  · intro st a rest
    unfold handle_intrinsic
    dsimp only
    rw [if_pos (by simp only [List.length_cons]; omega)]
    cases a <;> simp
  · intro st args
    rfl
  · intro st dest
    rfl

/-- Witness for `claim10_intrinsic_asserts_amended`, discharging the
assertion hypotheses at concrete calls: a Memcpy with no arguments panics, a
destination-less Deref panics, a VecIntoRawParts with a destination panics,
and a destination-less VecPush with two arguments does not. -/
theorem claim10_intrinsic_asserts_amended_witness :
    handle_intrinsic (∅ : BlockState) .Memcpy [] (some (.num 1)) = none
    ∧ handle_intrinsic (∅ : BlockState) .Deref [.local_ (.num 1)] none = none
    ∧ handle_intrinsic (∅ : BlockState) .VecIntoRawParts
        [.local_ (.num 1), .local_ (.num 2)] (some (.num 3)) = none
    ∧ handle_intrinsic (∅ : BlockState) .VecPush
        [.local_ (.num 1), .local_ (.num 2)] none ≠ none := by
  obtain ⟨hm, -, hd, -, -, -, -, hvirp, hvp, -⟩ := claim10_intrinsic_asserts_amended
  exact ⟨hm _ _ _ (by simp), hd _ _, hvirp _ _ _ (by simp), hvp _ _ _ _⟩

/-! ## Lattice lemmas for `MemoryState` -/

theorem ms_union_self (a : MemoryState) : a.union a = a := by
  cases a <;> rfl

theorem ms_union_untainted_right (a : MemoryState) : a.union .Untainted = a := by
  cases a <;> rfl

theorem ms_union_untainted_left (a : MemoryState) : MemoryState.union .Untainted a = a := by
  cases a <;> rfl

theorem ms_union_absorb (a b : MemoryState) :
    ((a.union b).union a).union b = a.union b := by
  cases a <;> cases b <;> rfl

theorem ms_le_union_left (a b : MemoryState) : MemoryState.le a (a.union b) = true := by
  cases a <;> cases b <;> rfl

theorem ms_le_union_right (a b : MemoryState) : MemoryState.le b (a.union b) = true := by
  cases a <;> cases b <;> rfl

theorem ms_le_refl (a : MemoryState) : MemoryState.le a a = true := by
  cases a <;> rfl

theorem ms_gt_untainted_of_ne (a : MemoryState) (h : a ≠ .Untainted) :
    MemoryState.gt a .Untainted = true := by
  cases a <;> simp_all <;> rfl

/-! ## `BTreeSet` lemmas -/

theorem cmp_self (a : LlvmName) : LlvmName.cmp a a = .eq := by
  cases a with
  | str s => simp [LlvmName.cmp, compare, compareOfLessAndEq]
  | num n => simp [LlvmName.cmp, Nat.compare_eq_eq]

theorem btreeMerge_self (l : List LlvmName) : btreeMerge l l = l := by
  induction l with
  | nil => simp [btreeMerge]
  | cons x xs ih =>
    unfold btreeMerge
    rw [cmp_self]
    exact congrArg (x :: ·) ih

/-! ## More association-list lemmas -/

theorem find?_replaceEntry_ne {κ α : Type _} [DecidableEq κ] (m : List (κ × α)) (k k' : κ)
    (v : α) (hk : k' ≠ k) :
    (m.map (fun p => if p.1 = k then (k, v) else p)).find? (fun p => p.1 = k')
      = m.find? (fun p => p.1 = k') := by
  induction m with
  | nil => rfl
  | cons p m ih =>
    by_cases hp : p.1 = k
    · rw [List.map_cons, if_pos hp]
      rw [List.find?_cons_of_neg _ (by simpa using hk.symm),
        List.find?_cons_of_neg _ (by simp [hp, hk.symm])]
      exact ih
    · rw [List.map_cons, if_neg hp]
      by_cases hp' : p.1 = k'
      · rw [List.find?_cons_of_pos _ (by simpa using hp'),
          List.find?_cons_of_pos _ (by simpa using hp')]
      · rw [List.find?_cons_of_neg _ (by simpa using hp'),
          List.find?_cons_of_neg _ (by simpa using hp')]
        exact ih

theorem mapFind?_mapInsert_ne {κ α : Type _} [DecidableEq κ] (m : List (κ × α)) (k k' : κ)
    (v : α) (hk : k' ≠ k) : mapFind? (mapInsert m k v) k' = mapFind? m k' := by
  unfold mapInsert mapFind?
  cases h : m.any (fun p => p.1 = k) with
  | true =>
    rw [if_pos rfl, find?_replaceEntry_ne m k k' v hk]
  | false =>
    rw [if_neg (by simp), List.find?_append]
    have : List.find? (fun p => p.1 = k') [(k, v)] = none := by
      simp [List.find?, hk.symm]
    rw [this]
    cases m.find? (fun p => p.1 = k') <;> rfl

theorem mapInsert_of_not_any {κ α : Type _} [DecidableEq κ] (m : List (κ × α)) (k : κ)
    (v : α) (h : m.any (fun p => p.1 = k) = false) :
    mapInsert m k v = m ++ [(k, v)] := by
  unfold mapInsert
  rw [if_neg (by simp [h])]

theorem mapInsert_eq_self {κ α : Type _} [DecidableEq κ] (m : List (κ × α)) (k : κ) (v : α)
    (hmem : (k, v) ∈ m) (huniq : ∀ p ∈ m, p.1 = k → p = (k, v)) :
    mapInsert m k v = m := by
  unfold mapInsert
  rw [if_pos (List.any_eq_true.mpr ⟨(k, v), hmem, by simp⟩)]
  have : ∀ p ∈ m, (if p.1 = k then (k, v) else p) = p := by
    intro p hp
    by_cases hpk : p.1 = k
    · rw [if_pos hpk, huniq p hp hpk]
    · rw [if_neg hpk]
  calc m.map (fun p => if p.1 = k then (k, v) else p) = m.map id := List.map_congr_left this
    _ = m := List.map_id m

/-! ## Class-lookup lemmas -/

theorem findClass_of_mem (m : List (Allocation × MemoryState)) (c : Allocation)
    (s : MemoryState) (v : LlvmName)
    (hwf : m.Pairwise (fun p q => AllocDisjoint p.1 q.1))
    (hmem : (c, s) ∈ m) (hv : v ∈ c.set) :
    m.find? (fun p => v ∈ p.1.set) = some (c, s) := by
  induction m with
  | nil => simp at hmem
  | cons p rest ih =>
    rcases List.mem_cons.mp hmem with heq | hmem'
    · subst heq
      exact List.find?_cons_of_pos _ (by simpa using hv)
    · have hdisj : AllocDisjoint p.1 c :=
        (List.pairwise_cons.mp hwf).1 (c, s) hmem'
      rw [List.find?_cons_of_neg _ (by simpa using fun hvp => hdisj v hvp hv)]
      exact ih (List.pairwise_cons.mp hwf).2 hmem'

theorem findClass_eq_none (m : List (Allocation × MemoryState)) (v : LlvmName)
    (h : ∀ p ∈ m, v ∉ p.1.set) :
    m.find? (fun p => v ∈ p.1.set) = none := by
  rw [List.find?_eq_none]
  intro p hp
  simpa using h p hp

theorem keyFind?_of_mem (m : List (Allocation × MemoryState)) (c : Allocation)
    (s : MemoryState) (hwf : m.Pairwise (fun p q => AllocDisjoint p.1 q.1))
    (hne : ∀ p ∈ m, p.1.set ≠ []) (hmem : (c, s) ∈ m) :
    mapFind? m c = some s := by
  induction m with
  | nil => simp at hmem
  | cons p rest ih =>
    rcases List.mem_cons.mp hmem with heq | hmem'
    · subst heq
      unfold mapFind?
      rw [List.find?_cons_of_pos _ (by simp)]
      rfl
    · have hdisj : AllocDisjoint p.1 c :=
        (List.pairwise_cons.mp hwf).1 (c, s) hmem'
      have hpc : p.1 ≠ c := by
        intro hpc
        obtain ⟨w, hw⟩ := List.exists_mem_of_ne_nil c.set
          (hne (c, s) (List.mem_cons_of_mem p hmem'))
        exact hdisj w (hpc ▸ hw) hw
      unfold mapFind?
      rw [List.find?_cons_of_neg _ (by simpa using hpc)]
      exact ih (List.pairwise_cons.mp hwf).2 (fun q hq => hne q (List.mem_cons_of_mem p hq))
        hmem'

theorem keyFind?_eq_none_of_not_has (A : BlockState) (c : Allocation)
    (h : hasClass A c = false) : mapFind? A.state c = none := by
  unfold mapFind?
  rw [find?_eq_none_of_not_any _ _ (by simpa [hasClass] using h)]
  rfl

/-! ## Behaviour of one `union` step

Three insertion lemmas (the step that first touches a class appends it with
the joined state) and three stability lemmas (every later step on the same
class rewrites the entry with an equal value), for a class shared by both
operands, present only in `self`, or present only in `other`. -/

theorem get_memory_state_of_find? (st : BlockState) (v : LlvmName) (c : Allocation)
    (s : MemoryState) (h : st.state.find? (fun p => v ∈ p.1.set) = some (c, s)) :
    st.get_memory_state v = s := by
  unfold BlockState.get_memory_state
  rw [h]

theorem get_memory_state_of_find?_none (st : BlockState) (v : LlvmName)
    (h : st.state.find? (fun p => v ∈ p.1.set) = none) :
    st.get_memory_state v = .Untainted := by
  unfold BlockState.get_memory_state
  rw [h]

theorem get_allocation_of_find? (st : BlockState) (v : LlvmName) (c : Allocation)
    (s : MemoryState) (h : st.state.find? (fun p => v ∈ p.1.set) = some (c, s)) :
    st.get_allocation v = some c := by
  unfold BlockState.get_allocation
  rw [h]
  rfl

theorem get_allocation_of_find?_none (st : BlockState) (v : LlvmName)
    (h : st.state.find? (fun p => v ∈ p.1.set) = none) :
    st.get_allocation v = none := by
  unfold BlockState.get_allocation
  rw [h]
  rfl

theorem unionStep_insert_shared (A B res : BlockState) (v : LlvmName) (c : Allocation)
    (sA sB : MemoryState)
    (hres : res.state.find? (fun p => v ∈ p.1.set) = none)
    (hfresh : res.state.any (fun p => p.1 = c) = false)
    (hAv : A.state.find? (fun p => v ∈ p.1.set) = some (c, sA))
    (hAk : mapFind? A.state c = some sA)
    (hBv : B.state.find? (fun p => v ∈ p.1.set) = some (c, sB))
    (hBk : mapFind? B.state c = some sB) :
    BlockState.unionStep A B res v = ⟨res.state ++ [(c, sA.union sB)]⟩ := by
  unfold BlockState.unionStep
  dsimp only
  rw [get_memory_state_of_find?_none res v hres, if_neg (by decide),
    get_allocation_of_find? A v c sA hAv, get_allocation_of_find? B v c sB hBv]
  dsimp only
  rw [btreeMerge_self, hAk, hBk]
  dsimp only [Option.getD_some]
  rw [show (⟨c.set⟩ : Allocation) = c from rfl, mapInsert_of_not_any _ _ _ hfresh]

theorem unionStep_insert_aonly (A B res : BlockState) (v : LlvmName) (c : Allocation)
    (sA : MemoryState)
    (hres : res.state.find? (fun p => v ∈ p.1.set) = none)
    (hfresh : res.state.any (fun p => p.1 = c) = false)
    (hAv : A.state.find? (fun p => v ∈ p.1.set) = some (c, sA))
    (hAk : mapFind? A.state c = some sA)
    (hBv : B.state.find? (fun p => v ∈ p.1.set) = none) :
    BlockState.unionStep A B res v = ⟨res.state ++ [(c, sA)]⟩ := by
  unfold BlockState.unionStep
  dsimp only
  rw [get_memory_state_of_find?_none res v hres, if_neg (by decide),
    get_allocation_of_find? A v c sA hAv, get_allocation_of_find?_none B v hBv]
  dsimp only
  rw [hAk]
  dsimp only [Option.getD_some]
  rw [mapInsert_of_not_any _ _ _ hfresh]

theorem unionStep_insert_bonly (A B res : BlockState) (v : LlvmName) (c : Allocation)
    (sB : MemoryState)
    (hres : res.state.find? (fun p => v ∈ p.1.set) = none)
    (hfresh : res.state.any (fun p => p.1 = c) = false)
    (hAv : A.state.find? (fun p => v ∈ p.1.set) = none)
    (hBv : B.state.find? (fun p => v ∈ p.1.set) = some (c, sB))
    (hBk : mapFind? B.state c = some sB) :
    BlockState.unionStep A B res v = ⟨res.state ++ [(c, sB)]⟩ := by
  unfold BlockState.unionStep
  dsimp only
  rw [get_memory_state_of_find?_none res v hres, if_neg (by decide),
    get_allocation_of_find?_none A v hAv, get_allocation_of_find? B v c sB hBv]
  dsimp only
  rw [hBk]
  dsimp only [Option.getD_some]
  rw [mapInsert_of_not_any _ _ _ hfresh]

theorem unionStep_noChange_shared (A B res : BlockState) (v : LlvmName) (c : Allocation)
    (sA sB : MemoryState)
    (hresv : res.state.find? (fun p => v ∈ p.1.set) = some (c, sA.union sB))
    (huniq : ∀ p ∈ res.state, p.1 = c → p = (c, sA.union sB))
    (hAv : A.state.find? (fun p => v ∈ p.1.set) = some (c, sA))
    (hAk : mapFind? A.state c = some sA)
    (hBv : B.state.find? (fun p => v ∈ p.1.set) = some (c, sB))
    (hBk : mapFind? B.state c = some sB) :
    BlockState.unionStep A B res v = res := by
  have hmem : (c, sA.union sB) ∈ res.state := List.mem_of_find?_eq_some hresv
  unfold BlockState.unionStep
  dsimp only
  rw [get_memory_state_of_find? res v c _ hresv]
  by_cases hs : sA.union sB = .Untainted
  · rw [hs, if_neg (by decide),
      get_allocation_of_find? A v c sA hAv, get_allocation_of_find? B v c sB hBv]
    dsimp only
    rw [btreeMerge_self, hAk, hBk]
    dsimp only [Option.getD_some]
    rw [show (⟨c.set⟩ : Allocation) = c from rfl]
    exact congrArg BlockState.mk (mapInsert_eq_self res.state c (sA.union sB) hmem huniq)
  · rw [if_pos (ms_gt_untainted_of_ne _ hs),
      get_allocation_of_find? res v c _ hresv]
    dsimp only
    rw [get_memory_state_of_find? A v c sA hAv, get_memory_state_of_find? B v c sB hBv,
      ms_union_absorb]
    exact congrArg BlockState.mk (mapInsert_eq_self res.state c (sA.union sB) hmem huniq)

theorem unionStep_noChange_aonly (A B res : BlockState) (v : LlvmName) (c : Allocation)
    (sA : MemoryState)
    (hresv : res.state.find? (fun p => v ∈ p.1.set) = some (c, sA))
    (huniq : ∀ p ∈ res.state, p.1 = c → p = (c, sA))
    (hAv : A.state.find? (fun p => v ∈ p.1.set) = some (c, sA))
    (hAk : mapFind? A.state c = some sA)
    (hBv : B.state.find? (fun p => v ∈ p.1.set) = none) :
    BlockState.unionStep A B res v = res := by
  have hmem : (c, sA) ∈ res.state := List.mem_of_find?_eq_some hresv
  unfold BlockState.unionStep
  dsimp only
  rw [get_memory_state_of_find? res v c _ hresv]
  by_cases hs : sA = .Untainted
  · rw [hs, if_neg (by decide),
      get_allocation_of_find? A v c sA hAv, get_allocation_of_find?_none B v hBv]
    dsimp only
    rw [hAk]
    dsimp only [Option.getD_some]
    exact congrArg BlockState.mk (mapInsert_eq_self res.state c sA (hs ▸ hmem) (hs ▸ huniq))
  · rw [if_pos (ms_gt_untainted_of_ne _ hs),
      get_allocation_of_find? res v c _ hresv]
    dsimp only
    rw [get_memory_state_of_find? A v c sA hAv, get_memory_state_of_find?_none B v hBv,
      ms_union_self, ms_union_untainted_right]
    exact congrArg BlockState.mk (mapInsert_eq_self res.state c sA hmem huniq)

theorem unionStep_noChange_bonly (A B res : BlockState) (v : LlvmName) (c : Allocation)
    (sB : MemoryState)
    (hresv : res.state.find? (fun p => v ∈ p.1.set) = some (c, sB))
    (huniq : ∀ p ∈ res.state, p.1 = c → p = (c, sB))
    (hAv : A.state.find? (fun p => v ∈ p.1.set) = none)
    (hBv : B.state.find? (fun p => v ∈ p.1.set) = some (c, sB))
    (hBk : mapFind? B.state c = some sB) :
    BlockState.unionStep A B res v = res := by
  have hmem : (c, sB) ∈ res.state := List.mem_of_find?_eq_some hresv
  unfold BlockState.unionStep
  dsimp only
  rw [get_memory_state_of_find? res v c _ hresv]
  by_cases hs : sB = .Untainted
  · rw [hs, if_neg (by decide),
      get_allocation_of_find?_none A v hAv, get_allocation_of_find? B v c sB hBv]
    dsimp only
    rw [hBk]
    dsimp only [Option.getD_some]
    exact congrArg BlockState.mk (mapInsert_eq_self res.state c sB (hs ▸ hmem) (hs ▸ huniq))
  · rw [if_pos (ms_gt_untainted_of_ne _ hs),
      get_allocation_of_find? res v c _ hresv]
    dsimp only
    rw [get_memory_state_of_find?_none A v hAv, get_memory_state_of_find? B v c sB hBv,
      ms_union_untainted_right, ms_union_self]
    exact congrArg BlockState.mk (mapInsert_eq_self res.state c sB hmem huniq)

theorem foldl_unionStep_noChange (A B res : BlockState) (ws : List LlvmName)
    (h : ∀ w ∈ ws, BlockState.unionStep A B res w = res) :
    ws.foldl (BlockState.unionStep A B) res = res := by
  induction ws with
  | nil => rfl
  | cons w ws ih =>
    rw [List.foldl_cons, h w (List.mem_cons_self w ws)]
    exact ih (fun w' hw' => h w' (List.mem_cons_of_mem w hw'))

/-! ## Generic helpers on `find?`, membership and pairwise disjointness -/

theorem find?_append_none_left {α : Type _} (l₁ l₂ : List α) (p : α → Bool)
    (h : l₁.find? p = none) : (l₁ ++ l₂).find? p = l₂.find? p := by
  rw [List.find?_append, h]
  rfl

theorem find?_append_some_left {α : Type _} (l₁ l₂ : List α) (p : α → Bool) (a : α)
    (h : l₁.find? p = some a) : (l₁ ++ l₂).find? p = some a := by
  rw [List.find?_append, h]
  rfl

theorem disjoint_or_eq_of_mem (m : List (Allocation × MemoryState))
    (hwf : m.Pairwise (fun p q => AllocDisjoint p.1 q.1))
    (p q : Allocation × MemoryState) (hp : p ∈ m) (hq : q ∈ m) :
    p = q ∨ (AllocDisjoint p.1 q.1 ∧ AllocDisjoint q.1 p.1) := by
  induction m with
  | nil => simp at hp
  | cons a rest ih =>
    obtain ⟨hhead, htail⟩ := List.pairwise_cons.mp hwf
    rcases List.mem_cons.mp hp with hpa | hp'
    · rcases List.mem_cons.mp hq with hqa | hq'
      · exact Or.inl (hpa.trans hqa.symm)
      · subst hpa
        exact Or.inr ⟨hhead q hq', fun v hv hv' => hhead q hq' v hv' hv⟩
    · rcases List.mem_cons.mp hq with hqa | hq'
      · subst hqa
        exact Or.inr ⟨fun v hv hv' => hhead p hp' v hv' hv, hhead p hp'⟩
      · exact ih htail hp' hq'

theorem mem_entry_unique (m : List (Allocation × MemoryState))
    (hwf : m.Pairwise (fun p q => AllocDisjoint p.1 q.1))
    (hne : ∀ p ∈ m, p.1.set ≠ [])
    (p q : Allocation × MemoryState) (hp : p ∈ m) (hq : q ∈ m) (hkey : p.1 = q.1) :
    p = q := by
  rcases disjoint_or_eq_of_mem m hwf p q hp hq with h | ⟨h1, _⟩
  · exact h
  · obtain ⟨v, hv⟩ := List.exists_mem_of_ne_nil p.1.set (hne p hp)
    exact absurd (hkey ▸ hv) (h1 v hv)

theorem classes_eq_of_shared (m : List (Allocation × MemoryState))
    (hwf : m.Pairwise (fun p q => AllocDisjoint p.1 q.1))
    (p q : Allocation × MemoryState) (hp : p ∈ m) (hq : q ∈ m)
    (v : LlvmName) (hvp : v ∈ p.1.set) (hvq : v ∈ q.1.set) : p = q := by
  rcases disjoint_or_eq_of_mem m hwf p q hp hq with h | ⟨h1, _⟩
  · exact h
  · exact absurd hvq (h1 v hvp)

theorem mapInsert_mem {κ α : Type _} [DecidableEq κ] (m : List (κ × α)) (k : κ) (v : α)
    (p : κ × α) (hp : p ∈ mapInsert m k v) : p = (k, v) ∨ p ∈ m := by
  unfold mapInsert at hp
  by_cases hany : m.any (fun q => q.1 = k) = true
  · rw [if_pos hany] at hp
    obtain ⟨q, hq, hfq⟩ := List.mem_map.mp hp
    by_cases hqk : q.1 = k
    · rw [if_pos hqk] at hfq
      exact Or.inl hfq.symm
    · rw [if_neg hqk] at hfq
      exact Or.inr (hfq ▸ hq)
  · rw [if_neg hany] at hp
    rcases List.mem_append.mp hp with h | h
    · exact Or.inr h
    · exact Or.inl (List.mem_singleton.mp h)

theorem mapInsert_pairwise (m : List (Allocation × MemoryState)) (k : Allocation)
    (v : MemoryState)
    (hwf : m.Pairwise (fun p q => AllocDisjoint p.1 q.1))
    (hdisj : ∀ q ∈ m, q.1 = k ∨ (AllocDisjoint q.1 k ∧ AllocDisjoint k q.1)) :
    (mapInsert m k v).Pairwise (fun p q => AllocDisjoint p.1 q.1) := by
  unfold mapInsert
  by_cases hany : m.any (fun p => p.1 = k) = true
  · rw [if_pos hany]
    have hkey : ∀ p : Allocation × MemoryState, ((if p.1 = k then (k, v) else p).1) = p.1 := by
      intro p
      by_cases h : p.1 = k
      · rw [if_pos h]
        exact h.symm
      · rw [if_neg h]
    refine hwf.map _ ?_
    intro a b hab
    show AllocDisjoint (if a.1 = k then (k, v) else a).1 (if b.1 = k then (k, v) else b).1
    rw [hkey a, hkey b]
    exact hab
  · rw [if_neg hany]
    refine List.pairwise_append.mpr ⟨hwf, List.pairwise_singleton _ _, ?_⟩
    intro a ha b hb
    have hb' : b = (k, v) := List.mem_singleton.mp hb
    subst hb'
    rcases hdisj a ha with h | ⟨h1, _⟩
    · exact absurd h (by simpa using (List.any_eq_false.mp (Bool.of_not_eq_true hany)) a ha)
    · exact h1

/-! ## Per-class behaviour of the `union` fold -/

theorem classFoldA (A B res : BlockState) (c : Allocation) (s : MemoryState)
    (hwfA : A.state.Pairwise (fun p q => AllocDisjoint p.1 q.1))
    (hneA : ∀ p ∈ A.state, p.1.set ≠ [])
    (hwfB : B.state.Pairwise (fun p q => AllocDisjoint p.1 q.1))
    (hneB : ∀ p ∈ B.state, p.1.set ≠ [])
    (hAB : CrossOk A B)
    (hmemA : (c, s) ∈ A.state)
    (hres : ∀ w ∈ c.set, res.state.find? (fun p => w ∈ p.1.set) = none)
    (hfresh : res.state.any (fun p => p.1 = c) = false) :
    c.set.foldl (BlockState.unionStep A B) res
      = ⟨res.state ++ [(c, s.union (classStateIn B c))]⟩ := by
  have hcne : c.set ≠ [] := hneA (c, s) hmemA
  obtain ⟨v, vs, hset⟩ : ∃ v vs, c.set = v :: vs := by
    cases h : c.set with
    | nil => exact absurd h hcne
    | cons v vs => exact ⟨v, vs, rfl⟩
  have hv₀ : v ∈ c.set := hset ▸ List.mem_cons_self v vs
  have hAk : mapFind? A.state c = some s := keyFind?_of_mem A.state c s hwfA hneA hmemA
  have huniq : ∀ X, ∀ p ∈ res.state ++ [(c, X)], p.1 = c → p = (c, X) := by
    intro X p hp hpk
    rcases List.mem_append.mp hp with h | h
    · exact absurd hpk (by simpa using List.any_eq_false.mp hfresh p h)
    · exact List.mem_singleton.mp h
  cases hshared : hasClass B c with
  | true =>
    obtain ⟨q, hq, hq1⟩ := List.any_eq_true.mp hshared
    have hq1' : q.1 = c := by simpa using hq1
    have hmemB : (c, q.2) ∈ B.state := by
      have hqe : q = (c, q.2) := Prod.ext hq1' rfl
      exact hqe ▸ hq
    have hBk : mapFind? B.state c = some q.2 := keyFind?_of_mem B.state c q.2 hwfB hneB hmemB
    have hcs : classStateIn B c = q.2 := by
      unfold classStateIn
      rw [hBk]
      rfl
    have hstep1 : BlockState.unionStep A B res v = ⟨res.state ++ [(c, s.union q.2)]⟩ :=
      unionStep_insert_shared A B res v c s q.2 (hres v hv₀) hfresh
        (findClass_of_mem A.state c s v hwfA hmemA hv₀) hAk
        (findClass_of_mem B.state c q.2 v hwfB hmemB hv₀) hBk
    rw [hset, List.foldl_cons, hstep1, hcs]
    refine foldl_unionStep_noChange A B _ vs ?_
    intro w hw
    have hwc : w ∈ c.set := hset ▸ List.mem_cons_of_mem v hw
    refine unionStep_noChange_shared A B _ w c s q.2 ?_ (huniq (s.union q.2))
      (findClass_of_mem A.state c s w hwfA hmemA hwc) hAk
      (findClass_of_mem B.state c q.2 w hwfB hmemB hwc) hBk
    exact (find?_append_none_left _ _ _ (hres w hwc)).trans
      (List.find?_cons_of_pos _ (by simpa using hwc))
  | false =>
    have hBknone : mapFind? B.state c = none := keyFind?_eq_none_of_not_has B c hshared
    have hcs : classStateIn B c = .Untainted := by
      unfold classStateIn
      rw [hBknone]
      rfl
    have hBnone : ∀ w ∈ c.set, B.state.find? (fun p => w ∈ p.1.set) = none := by
      intro w hw
      apply findClass_eq_none
      intro q hq hwq
      rcases hAB (c, s) hmemA q hq with heq | hdisj
      · have hhc : hasClass B c = true := by
          unfold hasClass
          exact List.any_eq_true.mpr ⟨q, hq, by simp [← heq]⟩
        rw [hshared] at hhc
        simp at hhc
      · exact hdisj w hw hwq
    have hstep1 : BlockState.unionStep A B res v = ⟨res.state ++ [(c, s)]⟩ :=
      unionStep_insert_aonly A B res v c s (hres v hv₀) hfresh
        (findClass_of_mem A.state c s v hwfA hmemA hv₀) hAk (hBnone v hv₀)
    rw [hset, List.foldl_cons, hstep1, hcs, ms_union_untainted_right]
    refine foldl_unionStep_noChange A B _ vs ?_
    intro w hw
    have hwc : w ∈ c.set := hset ▸ List.mem_cons_of_mem v hw
    refine unionStep_noChange_aonly A B _ w c s ?_ (huniq s)
      (findClass_of_mem A.state c s w hwfA hmemA hwc) hAk (hBnone w hwc)
    exact (find?_append_none_left _ _ _ (hres w hwc)).trans
      (List.find?_cons_of_pos _ (by simpa using hwc))

theorem classFoldB (A B res : BlockState) (d : Allocation) (t : MemoryState)
    (hwfB : B.state.Pairwise (fun p q => AllocDisjoint p.1 q.1))
    (hneB : ∀ p ∈ B.state, p.1.set ≠ [])
    (hnotA : hasClass A d = false)
    (hAB : CrossOk A B)
    (hmemB : (d, t) ∈ B.state)
    (hres : ∀ w ∈ d.set, res.state.find? (fun p => w ∈ p.1.set) = none)
    (hfresh : res.state.any (fun p => p.1 = d) = false) :
    d.set.foldl (BlockState.unionStep A B) res = ⟨res.state ++ [(d, t)]⟩ := by
  have hdne : d.set ≠ [] := hneB (d, t) hmemB
  obtain ⟨v, vs, hset⟩ : ∃ v vs, d.set = v :: vs := by
    cases h : d.set with
    | nil => exact absurd h hdne
    | cons v vs => exact ⟨v, vs, rfl⟩
  have hv₀ : v ∈ d.set := hset ▸ List.mem_cons_self v vs
  have hAnone : ∀ w ∈ d.set, A.state.find? (fun p => w ∈ p.1.set) = none := by
    intro w hw
    apply findClass_eq_none
    intro p hp hwp
    rcases hAB p hp (d, t) hmemB with heq | hdisj
    · have hhc : hasClass A d = true := by
        unfold hasClass
        exact List.any_eq_true.mpr ⟨p, hp, by simp [heq]⟩
      rw [hnotA] at hhc
      simp at hhc
    · exact hdisj w hwp hw
  have hBk : mapFind? B.state d = some t := keyFind?_of_mem B.state d t hwfB hneB hmemB
  have huniq : ∀ p ∈ res.state ++ [(d, t)], p.1 = d → p = (d, t) := by
    intro p hp hpk
    rcases List.mem_append.mp hp with h | h
    · exact absurd hpk (by simpa using List.any_eq_false.mp hfresh p h)
    · exact List.mem_singleton.mp h
  have hstep1 : BlockState.unionStep A B res v = ⟨res.state ++ [(d, t)]⟩ :=
    unionStep_insert_bonly A B res v d t (hres v hv₀) hfresh (hAnone v hv₀)
      (findClass_of_mem B.state d t v hwfB hmemB hv₀) hBk
  rw [hset, List.foldl_cons, hstep1]
  refine foldl_unionStep_noChange A B _ vs ?_
  intro w hw
  have hwd : w ∈ d.set := hset ▸ List.mem_cons_of_mem v hw
  refine unionStep_noChange_bonly A B _ w d t ?_ huniq (hAnone w hwd)
    (findClass_of_mem B.state d t w hwfB hmemB hwd) hBk
  exact (find?_append_none_left _ _ _ (hres w hwd)).trans
    (List.find?_cons_of_pos _ (by simpa using hwd))

/-! ## The two phases of the `union` fold -/

theorem phaseA_fold (A B : BlockState)
    (hwfA : A.state.Pairwise (fun p q => AllocDisjoint p.1 q.1))
    (hneA : ∀ p ∈ A.state, p.1.set ≠ [])
    (hwfB : B.state.Pairwise (fun p q => AllocDisjoint p.1 q.1))
    (hneB : ∀ p ∈ B.state, p.1.set ≠ [])
    (hAB : CrossOk A B) :
    ∀ (suf pre : List (Allocation × MemoryState)), A.state = pre ++ suf →
      (suf.flatMap (fun p => p.1.set)).foldl (BlockState.unionStep A B)
          ⟨pre.map (unionImage B)⟩
        = ⟨A.state.map (unionImage B)⟩ := by
  intro suf
  induction suf with
  | nil =>
    intro pre hsplit
    rw [List.append_nil] at hsplit
    simp only [List.flatMap_nil, List.foldl_nil]
    rw [hsplit]
  | cons e suf ih =>
    intro pre hsplit
    obtain ⟨c, s⟩ := e
    rw [List.flatMap_cons, List.foldl_append]
    have hmemA : (c, s) ∈ A.state := by
      rw [hsplit]
      exact List.mem_append_right _ (List.mem_cons_self _ _)
    have hsp := hsplit ▸ hwfA
    obtain ⟨hpre, hsuf, hcross⟩ := List.pairwise_append.mp hsp
    have hdisjpre : ∀ p ∈ pre, AllocDisjoint p.1 c :=
      fun p hp => hcross p hp (c, s) (List.mem_cons_self _ _)
    have hres : ∀ w ∈ c.set, (pre.map (unionImage B)).find? (fun p => w ∈ p.1.set) = none := by
      intro w hw
      apply findClass_eq_none
      intro q hq hwq
      obtain ⟨p, hp, hpq⟩ := List.mem_map.mp hq
      have hwq' : w ∈ p.1.set := by
        rw [← hpq] at hwq
        simpa [unionImage] using hwq
      exact hdisjpre p hp w hwq' hw
    have hfresh : (pre.map (unionImage B)).any (fun p => p.1 = c) = false := by
      apply List.any_eq_false.mpr
      intro q hq
      obtain ⟨p, hp, hpq⟩ := List.mem_map.mp hq
      subst hpq
      simp only [decide_eq_true_eq]
      intro hpc
      have hpc' : p.1 = c := by simpa [unionImage] using hpc
      obtain ⟨w, hw⟩ := List.exists_mem_of_ne_nil c.set (hneA (c, s) hmemA)
      exact hdisjpre p hp w (by rw [hpc']; exact hw) hw
    have hcf := classFoldA A B ⟨pre.map (unionImage B)⟩ c s hwfA hneA hwfB hneB hAB hmemA
      hres hfresh
    rw [hcf]
    have hstep : (⟨pre.map (unionImage B) ++ [(c, s.union (classStateIn B c))]⟩ : BlockState)
        = ⟨(pre ++ [(c, s)]).map (unionImage B)⟩ := by
      rw [List.map_append]
      rfl
    rw [hstep]
    exact ih (pre ++ [(c, s)]) (by rw [hsplit, List.append_assoc]; rfl)

theorem phaseB_fold (A B : BlockState)
    (hwfA : A.state.Pairwise (fun p q => AllocDisjoint p.1 q.1))
    (hneA : ∀ p ∈ A.state, p.1.set ≠ [])
    (hwfB : B.state.Pairwise (fun p q => AllocDisjoint p.1 q.1))
    (hneB : ∀ p ∈ B.state, p.1.set ≠ [])
    (hAB : CrossOk A B) :
    ∀ (suf qre : List (Allocation × MemoryState)), B.state = qre ++ suf →
      (suf.flatMap (fun p => p.1.set)).foldl (BlockState.unionStep A B)
          ⟨A.state.map (unionImage B) ++ qre.filter (fun q => ¬ hasClass A q.1)⟩
        = ⟨A.state.map (unionImage B) ++ B.state.filter (fun q => ¬ hasClass A q.1)⟩ := by
  intro suf
  induction suf with
  | nil =>
    intro qre hsplit
    rw [List.append_nil] at hsplit
    simp only [List.flatMap_nil, List.foldl_nil]
    rw [hsplit]
  | cons e suf ih =>
    intro qre hsplit
    obtain ⟨d, t⟩ := e
    rw [List.flatMap_cons, List.foldl_append]
    have hmemB : (d, t) ∈ B.state := by
      rw [hsplit]
      exact List.mem_append_right _ (List.mem_cons_self _ _)
    have hsp := hsplit ▸ hwfB
    obtain ⟨hqre, hsuf, hcross⟩ := List.pairwise_append.mp hsp
    have hdisjqre : ∀ q ∈ qre, AllocDisjoint q.1 d :=
      fun q hq => hcross q hq (d, t) (List.mem_cons_self _ _)
    have hdne : d.set ≠ [] := hneB (d, t) hmemB
    cases hd : hasClass A d with
    | true =>
      obtain ⟨p₀, hp₀, hp₀1⟩ := List.any_eq_true.mp hd
      obtain ⟨d', sA⟩ := p₀
      have hp₀1' : d' = d := by simpa using hp₀1
      subst hp₀1'
      have hAk : mapFind? A.state d' = some sA := keyFind?_of_mem A.state d' sA hwfA hneA hp₀
      have hBk : mapFind? B.state d' = some t := keyFind?_of_mem B.state d' t hwfB hneB hmemB
      have hcsB : classStateIn B d' = t := by
        unfold classStateIn
        rw [hBk]
        rfl
      have himg : unionImage B (d', sA) = (d', sA.union t) := by
        unfold unionImage
        dsimp only
        rw [hcsB]
      have hmemRes : (d', sA.union t) ∈ A.state.map (unionImage B) := by
        have hm := List.mem_map_of_mem (unionImage B) hp₀
        rwa [himg] at hm
      have hwfMap : (A.state.map (unionImage B)).Pairwise
          (fun p q => AllocDisjoint p.1 q.1) := by
        refine hwfA.map _ ?_
        intro a b hab
        show AllocDisjoint (unionImage B a).1 (unionImage B b).1
        unfold unionImage
        exact hab
      have hid : d'.set.foldl (BlockState.unionStep A B)
          ⟨A.state.map (unionImage B) ++ qre.filter (fun q => ¬ hasClass A q.1)⟩
          = ⟨A.state.map (unionImage B) ++ qre.filter (fun q => ¬ hasClass A q.1)⟩ := by
        refine foldl_unionStep_noChange A B _ d'.set ?_
        intro w hw
        refine unionStep_noChange_shared A B _ w d' sA t ?_ ?_
          (findClass_of_mem A.state d' sA w hwfA hp₀ hw) hAk
          (findClass_of_mem B.state d' t w hwfB hmemB hw) hBk
        · exact find?_append_some_left _ _ _ _
            (findClass_of_mem _ d' (sA.union t) w hwfMap hmemRes hw)
        · intro p hp hpk
          rcases List.mem_append.mp hp with h | h
          · obtain ⟨p', hp', hp'e⟩ := List.mem_map.mp h
            have hp'1 : p'.1 = d' := by
              rw [← hp'e] at hpk
              simpa [unionImage] using hpk
            have hpe : p' = (d', sA) :=
              mem_entry_unique A.state hwfA hneA p' (d', sA) hp' hp₀ hp'1
            rw [← hp'e, hpe, himg]
          · obtain ⟨hpq, hpred⟩ := List.mem_filter.mp h
            rw [hpk] at hpred
            simp [hd] at hpred
      rw [hid]
      have hfilter : (qre ++ [(d', t)]).filter (fun q => ¬ hasClass A q.1)
          = qre.filter (fun q => ¬ hasClass A q.1) := by
        rw [List.filter_append]
        simp [hd]
      have hih := ih (qre ++ [(d', t)]) (by rw [hsplit, List.append_assoc]; rfl)
      rw [hfilter] at hih
      exact hih
    | false =>
      have hres : ∀ w ∈ d.set,
          (A.state.map (unionImage B) ++ qre.filter (fun q => ¬ hasClass A q.1)).find?
            (fun p => w ∈ p.1.set) = none := by
        intro w hw
        apply findClass_eq_none
        intro p hp hwp
        rcases List.mem_append.mp hp with h | h
        · obtain ⟨p', hp', hp'e⟩ := List.mem_map.mp h
          have hwp' : w ∈ p'.1.set := by
            rw [← hp'e] at hwp
            simpa [unionImage] using hwp
          rcases hAB p' hp' (d, t) hmemB with heq | hdisj
          · have hhc : hasClass A d = true := by
              unfold hasClass
              exact List.any_eq_true.mpr ⟨p', hp', by simp [heq]⟩
            rw [hd] at hhc
            simp at hhc
          · exact hdisj w hwp' hw
        · exact hdisjqre p (List.mem_of_mem_filter h) w hwp hw
      have hfresh : (A.state.map (unionImage B)
          ++ qre.filter (fun q => ¬ hasClass A q.1)).any (fun p => p.1 = d) = false := by
        apply List.any_eq_false.mpr
        intro p hp
        simp only [decide_eq_true_eq]
        intro hpk
        rcases List.mem_append.mp hp with h | h
        · obtain ⟨p', hp', hp'e⟩ := List.mem_map.mp h
          have hp'1 : p'.1 = d := by
            rw [← hp'e] at hpk
            simpa [unionImage] using hpk
          have hhc : hasClass A d = true := by
            unfold hasClass
            exact List.any_eq_true.mpr ⟨p', hp', by simp [hp'1]⟩
          rw [hd] at hhc
          simp at hhc
        · obtain ⟨w, hw⟩ := List.exists_mem_of_ne_nil d.set hdne
          exact hdisjqre p (List.mem_of_mem_filter h) w (by rw [hpk]; exact hw) hw
      have hcf := classFoldB A B
        ⟨A.state.map (unionImage B) ++ qre.filter (fun q => ¬ hasClass A q.1)⟩ d t
        hwfB hneB hd hAB hmemB hres hfresh
      rw [hcf]
      have hfilter : (qre ++ [(d, t)]).filter (fun q => ¬ hasClass A q.1)
          = qre.filter (fun q => ¬ hasClass A q.1) ++ [(d, t)] := by
        rw [List.filter_append]
        simp [hd]
      have hih := ih (qre ++ [(d, t)]) (by rw [hsplit, List.append_assoc]; rfl)
      rw [hfilter, ← List.append_assoc] at hih
      exact hih

/-- Under the amended hypotheses, `BlockState::union` computes exactly the
reference value `goodUnion`. -/
theorem union_eq_goodUnion (A B : BlockState) (hA : WFClasses A) (hB : WFClasses B)
    (hAB : CrossOk A B) : A.union B = goodUnion A B := by
  obtain ⟨hneA, hwfA⟩ := hA
  obtain ⟨hneB, hwfB⟩ := hB
  unfold BlockState.union goodUnion
  dsimp only
  rw [List.flatMap_append, List.foldl_append]
  have h1 : (A.state.flatMap (fun p => p.1.set)).foldl (BlockState.unionStep A B) ⟨[]⟩
      = ⟨A.state.map (unionImage B)⟩ := by
    have h := phaseA_fold A B hwfA hneA hwfB hneB hAB A.state [] rfl
    simpa using h
  rw [h1]
  have h2 := phaseB_fold A B hwfA hneA hwfB hneB hAB B.state [] rfl
  simpa using h2

/-! ## The flattening of `partial_cmp` -/

theorem setFold_find? (set : List LlvmName) (s : MemoryState)
    (acc : List (LlvmName × MemoryState)) (v : LlvmName) :
    mapFind? (set.foldl (fun acc2 w => mapInsert acc2 w s) acc) v
      = if v ∈ set then some s else mapFind? acc v := by
  induction set generalizing acc with
  | nil => simp
  | cons w ws ih =>
    rw [List.foldl_cons, ih]
    by_cases hv : v ∈ ws
    · rw [if_pos hv, if_pos (List.mem_cons_of_mem w hv)]
    · rw [if_neg hv]
      by_cases hw : v = w
      · subst hw
        rw [mapFind?_mapInsert_self, if_pos (List.mem_cons_self v ws)]
      · rw [mapFind?_mapInsert_ne _ _ _ _ hw, if_neg (by simp [hw, hv])]

theorem flattenFold_find? (entries : List (Allocation × MemoryState))
    (acc : List (LlvmName × MemoryState)) (v : LlvmName) :
    mapFind? (entries.foldl
        (fun acc2 p => p.1.set.foldl (fun acc3 w => mapInsert acc3 w p.2) acc2) acc) v
      = match lastClassVal entries v with
        | some s => some s
        | none => mapFind? acc v := by
  induction entries generalizing acc with
  | nil => rfl
  | cons p rest ih =>
    rw [List.foldl_cons, ih]
    simp only [lastClassVal]
    cases h : lastClassVal rest v with
    | some s => rfl
    | none =>
      rw [setFold_find?]
      by_cases hv : v ∈ p.1.set
      · rw [if_pos hv, if_pos hv]
      · rw [if_neg hv, if_neg hv]

theorem flatten_find? (st : BlockState) (v : LlvmName) :
    mapFind? (BlockState.flatten st) v = lastClassVal st.state v := by
  unfold BlockState.flatten
  rw [flattenFold_find?]
  cases lastClassVal st.state v <;> rfl

theorem lastClassVal_eq_none (entries : List (Allocation × MemoryState)) (v : LlvmName)
    (h : ∀ p ∈ entries, v ∉ p.1.set) : lastClassVal entries v = none := by
  induction entries with
  | nil => rfl
  | cons p rest ih =>
    simp only [lastClassVal]
    rw [ih (fun q hq => h q (List.mem_cons_of_mem p hq)),
      if_neg (h p (List.mem_cons_self p rest))]

theorem lastClassVal_of_mem (entries : List (Allocation × MemoryState))
    (hwf : entries.Pairwise (fun p q => AllocDisjoint p.1 q.1))
    (c : Allocation) (s : MemoryState) (v : LlvmName)
    (hmem : (c, s) ∈ entries) (hv : v ∈ c.set) :
    lastClassVal entries v = some s := by
  induction entries with
  | nil => simp at hmem
  | cons p rest ih =>
    obtain ⟨hhead, htail⟩ := List.pairwise_cons.mp hwf
    simp only [lastClassVal]
    rcases List.mem_cons.mp hmem with heq | hmem'
    · have hrest : lastClassVal rest v = none := by
        apply lastClassVal_eq_none
        intro q hq hvq
        exact hhead q hq v (by rw [← heq]; exact hv) hvq
      rw [hrest, if_pos (show v ∈ p.1.set by rw [← heq]; exact hv), ← heq]
    · rw [ih htail hmem']

/-! ## Membership in the flattening -/

theorem setFold_mem (set : List LlvmName) (s : MemoryState)
    (acc : List (LlvmName × MemoryState)) (p : LlvmName × MemoryState)
    (hp : p ∈ set.foldl (fun acc2 w => mapInsert acc2 w s) acc) :
    (p.1 ∈ set ∧ p.2 = s) ∨ p ∈ acc := by
  induction set generalizing acc with
  | nil => exact Or.inr hp
  | cons w ws ih =>
    rw [List.foldl_cons] at hp
    rcases ih (mapInsert acc w s) hp with ⟨h1, h2⟩ | h
    · exact Or.inl ⟨List.mem_cons_of_mem w h1, h2⟩
    · rcases mapInsert_mem acc w s p h with he | hm
      · exact Or.inl ⟨by rw [he]; exact List.mem_cons_self w ws, by rw [he]⟩
      · exact Or.inr hm

theorem flattenFold_mem (entries : List (Allocation × MemoryState))
    (acc : List (LlvmName × MemoryState)) (p : LlvmName × MemoryState)
    (hp : p ∈ entries.foldl
        (fun acc2 e => e.1.set.foldl (fun acc3 w => mapInsert acc3 w e.2) acc2) acc) :
    (∃ e ∈ entries, p.1 ∈ e.1.set ∧ p.2 = e.2) ∨ p ∈ acc := by
  induction entries generalizing acc with
  | nil => exact Or.inr hp
  | cons e rest ih =>
    rw [List.foldl_cons] at hp
    rcases ih _ hp with ⟨e', he', h⟩ | h
    · exact Or.inl ⟨e', List.mem_cons_of_mem e he', h⟩
    · rcases setFold_mem e.1.set e.2 acc p h with ⟨h1, h2⟩ | hm
      · exact Or.inl ⟨e, List.mem_cons_self e rest, h1, h2⟩
      · exact Or.inr hm

theorem flatten_mem (st : BlockState) (p : LlvmName × MemoryState)
    (hp : p ∈ BlockState.flatten st) :
    ∃ e ∈ st.state, p.1 ∈ e.1.set ∧ p.2 = e.2 := by
  unfold BlockState.flatten at hp
  rcases flattenFold_mem st.state [] p hp with h | h
  · exact h
  · simp at h

/-! ## Deriving `<=` from the flattenings -/

theorem le_of_flatten_all (self other : BlockState)
    (h : (BlockState.flatten self).all (fun p =>
        match mapFind? (BlockState.flatten other) p.1 with
        | some o => MemoryState.le p.2 o
        | none => false) = true) :
    BlockState.le self other = true := by
  unfold BlockState.le BlockState.partialCmp
  by_cases hm : BlockState.mapEq self other = true
  · rw [if_pos hm]
  · rw [if_neg hm]
    dsimp only
    rw [if_pos h]

theorem goodUnion_pairwise (A B : BlockState)
    (hwfA : A.state.Pairwise (fun p q => AllocDisjoint p.1 q.1))
    (hwfB : B.state.Pairwise (fun p q => AllocDisjoint p.1 q.1))
    (hAB : CrossOk A B) :
    (goodUnion A B).state.Pairwise (fun p q => AllocDisjoint p.1 q.1) := by
  unfold goodUnion
  dsimp only
  refine List.pairwise_append.mpr ⟨?_, ?_, ?_⟩
  · refine hwfA.map _ ?_
    intro a b hab
    show AllocDisjoint (unionImage B a).1 (unionImage B b).1
    unfold unionImage
    exact hab
  · exact hwfB.sublist (List.filter_sublist _)
  · intro a ha q hq
    obtain ⟨p', hp', hp'e⟩ := List.mem_map.mp ha
    obtain ⟨hqB, hqpred⟩ := List.mem_filter.mp hq
    rcases hAB p' hp' q hqB with heq | hdisj
    · have hhc : hasClass A q.1 = true := by
        unfold hasClass
        exact List.any_eq_true.mpr ⟨p', hp', by simp [heq]⟩
      simp only [decide_eq_true_eq] at hqpred
      exact absurd hhc hqpred
    · rw [← hp'e]
      show AllocDisjoint (unionImage B p').1 q.1
      unfold unionImage
      exact hdisj

theorem le_left_goodUnion (A B : BlockState) (hA : WFClasses A) (hB : WFClasses B)
    (hAB : CrossOk A B) : BlockState.le A (goodUnion A B) = true := by
  obtain ⟨hneA, hwfA⟩ := hA
  obtain ⟨hneB, hwfB⟩ := hB
  have hwfU := goodUnion_pairwise A B hwfA hwfB hAB
  apply le_of_flatten_all
  apply List.all_eq_true.mpr
  intro p hp
  dsimp only
  obtain ⟨e, he, hpe1, hpe2⟩ := flatten_mem A p hp
  obtain ⟨c, s⟩ := e
  have hmemU : (c, s.union (classStateIn B c)) ∈ (goodUnion A B).state := by
    unfold goodUnion
    dsimp only
    exact List.mem_append_left _ (List.mem_map_of_mem (unionImage B) he)
  have hflatU : mapFind? (BlockState.flatten (goodUnion A B)) p.1
      = some (s.union (classStateIn B c)) := by
    rw [flatten_find?]
    exact lastClassVal_of_mem _ hwfU c (s.union (classStateIn B c)) p.1 hmemU hpe1
  rw [hflatU, hpe2]
  exact ms_le_union_left s (classStateIn B c)

theorem le_right_goodUnion (A B : BlockState) (hA : WFClasses A) (hB : WFClasses B)
    (hAB : CrossOk A B) : BlockState.le B (goodUnion A B) = true := by
  obtain ⟨hneA, hwfA⟩ := hA
  obtain ⟨hneB, hwfB⟩ := hB
  have hwfU := goodUnion_pairwise A B hwfA hwfB hAB
  apply le_of_flatten_all
  apply List.all_eq_true.mpr
  intro p hp
  dsimp only
  obtain ⟨e, he, hpe1, hpe2⟩ := flatten_mem B p hp
  obtain ⟨d, t⟩ := e
  cases hd : hasClass A d with
  | true =>
    obtain ⟨p₀, hp₀, hp₀1⟩ := List.any_eq_true.mp hd
    obtain ⟨d', sA⟩ := p₀
    have hd'd : d' = d := by simpa using hp₀1
    subst hd'd
    have hBk : mapFind? B.state d' = some t := keyFind?_of_mem B.state d' t hwfB hneB he
    have hcsB : classStateIn B d' = t := by
      unfold classStateIn
      rw [hBk]
      rfl
    have himg : unionImage B (d', sA) = (d', sA.union t) := by
      unfold unionImage
      dsimp only
      rw [hcsB]
    have hmemU : (d', sA.union t) ∈ (goodUnion A B).state := by
      unfold goodUnion
      dsimp only
      refine List.mem_append_left _ ?_
      have hm := List.mem_map_of_mem (unionImage B) hp₀
      rwa [himg] at hm
    have hflatU : mapFind? (BlockState.flatten (goodUnion A B)) p.1
        = some (sA.union t) := by
      rw [flatten_find?]
      exact lastClassVal_of_mem _ hwfU d' (sA.union t) p.1 hmemU hpe1
    rw [hflatU, hpe2]
    exact ms_le_union_right sA t
  | false =>
    have hmemU : (d, t) ∈ (goodUnion A B).state := by
      unfold goodUnion
      dsimp only
      refine List.mem_append_right _ ?_
      refine List.mem_filter.mpr ⟨he, ?_⟩
      simp [hd]
    have hflatU : mapFind? (BlockState.flatten (goodUnion A B)) p.1 = some t := by
      rw [flatten_find?]
      exact lastClassVal_of_mem _ hwfU d t p.1 hmemU hpe1
    rw [hflatU, hpe2]
    exact ms_le_refl t

/-! ## Claim C4 — the upper-bound law of `BlockState::union` -/

/-- **Claim C4** (counterexample).  With `A = {{1, 2} : Forgotten}` and
`B = {{2, 3} : Borrowed}` — two perfectly well-formed states whose classes
overlap across the operands — `A.union(B)` keeps class `{1, 2}` at `Unknown`
but also inserts class `{2, 3}` at `Borrowed`; flattening (as
`BlockState::partial_cmp` does) then binds `2` to `Borrowed`, which is not
`>= Forgotten`, so `A <= A.union(B)` fails. -/
theorem claim4_union_upper_bound_counterexample :
    BlockState.le ⟨[(⟨[.num 1, .num 2]⟩, .Forgotten)]⟩
        (BlockState.union ⟨[(⟨[.num 1, .num 2]⟩, .Forgotten)]⟩
          ⟨[(⟨[.num 2, .num 3]⟩, .Borrowed)]⟩)
      = false := by rfl

/-! ## Claim C5 — pairwise disjointness of classes -/

/-- **Claim C5** (counterexample).  Both operands have pairwise-disjoint
classes, yet the `BlockState` returned by `union` contains the two distinct
classes `{1, 2}` and `{2, 3}`, which share the name `2`. -/
theorem claim5_union_disjointness_counterexample :
    PairwiseDisjointClasses ⟨[(⟨[.num 1, .num 2]⟩, .Tainted)]⟩
    ∧ PairwiseDisjointClasses ⟨[(⟨[.num 2, .num 3]⟩, .Borrowed)]⟩
    ∧ ¬ PairwiseDisjointClasses (BlockState.union ⟨[(⟨[.num 1, .num 2]⟩, .Tainted)]⟩
        ⟨[(⟨[.num 2, .num 3]⟩, .Borrowed)]⟩) := by
  refine ⟨?_, ?_, ?_⟩ <;> decide

/-! ## Membership facts about the ordered-set operations -/

theorem btreeInsert_mem (l : List LlvmName) (v w : LlvmName)
    (hp : w ∈ btreeInsert l v) : w = v ∨ w ∈ l := by
  induction l with
  | nil => simpa [btreeInsert] using hp
  | cons x xs ih =>
    cases h : LlvmName.cmp v x with
    | lt =>
      rw [show btreeInsert (x :: xs) v = v :: x :: xs from by
        simp only [btreeInsert]; rw [h]] at hp
      rcases List.mem_cons.mp hp with h1 | h1
      · exact Or.inl h1
      · exact Or.inr h1
    | eq =>
      rw [show btreeInsert (x :: xs) v = x :: xs from by
        simp only [btreeInsert]; rw [h]] at hp
      exact Or.inr hp
    | gt =>
      rw [show btreeInsert (x :: xs) v = x :: btreeInsert xs v from by
        simp only [btreeInsert]; rw [h]] at hp
      rcases List.mem_cons.mp hp with h1 | h1
      · exact Or.inr (h1 ▸ List.mem_cons_self x xs)
      · rcases ih h1 with h2 | h2
        · exact Or.inl h2
        · exact Or.inr (List.mem_cons_of_mem x h2)

theorem btreeMerge_mem (l₁ l₂ : List LlvmName) (w : LlvmName)
    (hp : w ∈ btreeMerge l₁ l₂) : w ∈ l₁ ∨ w ∈ l₂ := by
  induction l₁ generalizing l₂ with
  | nil => exact Or.inr (by simpa [btreeMerge] using hp)
  | cons x xs ih =>
    induction l₂ with
    | nil => exact Or.inl (by simpa [btreeMerge] using hp)
    | cons y ys ih2 =>
      cases h : LlvmName.cmp x y with
      | lt =>
        rw [show btreeMerge (x :: xs) (y :: ys) = x :: btreeMerge xs (y :: ys) from by
          simp only [btreeMerge]; rw [h]] at hp
        rcases List.mem_cons.mp hp with h1 | h1
        · exact Or.inl (h1 ▸ List.mem_cons_self x xs)
        · rcases ih (y :: ys) h1 with h2 | h2
          · exact Or.inl (List.mem_cons_of_mem x h2)
          · exact Or.inr h2
      | eq =>
        rw [show btreeMerge (x :: xs) (y :: ys) = x :: btreeMerge xs ys from by
          simp only [btreeMerge]; rw [h]] at hp
        rcases List.mem_cons.mp hp with h1 | h1
        · exact Or.inl (h1 ▸ List.mem_cons_self x xs)
        · rcases ih ys h1 with h2 | h2
          · exact Or.inl (List.mem_cons_of_mem x h2)
          · exact Or.inr (List.mem_cons_of_mem y h2)
      | gt =>
        rw [show btreeMerge (x :: xs) (y :: ys) = y :: btreeMerge (x :: xs) ys from by
          simp only [btreeMerge]; rw [h]] at hp
        rcases List.mem_cons.mp hp with h1 | h1
        · exact Or.inr (h1 ▸ List.mem_cons_self y ys)
        · rcases ih2 h1 with h2 | h2
          · exact Or.inl h2
          · exact Or.inr (List.mem_cons_of_mem y h2)

theorem foldl_allocInsert_mem (ps : List String) (a : Allocation) (w : LlvmName)
    (hp : w ∈ (ps.foldl (fun acc p => acc.insert (.str p)) a).set) :
    w ∈ a.set ∨ ∃ p ∈ ps, w = LlvmName.str p := by
  induction ps generalizing a with
  | nil => exact Or.inl hp
  | cons p ps ih =>
    rw [List.foldl_cons] at hp
    rcases ih (a.insert (.str p)) hp with h | ⟨p', hp', he⟩
    · rcases btreeInsert_mem a.set (.str p) w h with he | hm
      · exact Or.inr ⟨p, List.mem_cons_self p ps, he⟩
      · exact Or.inl hm
    · exact Or.inr ⟨p', List.mem_cons_of_mem p hp', he⟩

theorem expandName_mem (a : Allocation) (var w : LlvmName)
    (hp : w ∈ (expandName a var).set) : w ∈ a.set ∨ w ∈ prefixNames var := by
  cases var with
  | str s =>
    simp only [expandName] at hp
    rcases foldl_allocInsert_mem (dottedParts s) a w hp with h | ⟨p, hpp, he⟩
    · exact Or.inl h
    · refine Or.inr ?_
      simp only [prefixNames]
      rw [he]
      exact List.mem_cons_of_mem _ (List.mem_map_of_mem _ hpp)
  | num n =>
    simp only [expandName] at hp
    exact Or.inl hp

/-! ## `get_allocation` facts -/

theorem get_allocation_mem (st : BlockState) (var : LlvmName) (c : Allocation)
    (h : st.get_allocation var = some c) :
    ∃ s, (c, s) ∈ st.state ∧ var ∈ c.set := by
  unfold BlockState.get_allocation at h
  cases hf : st.state.find? (fun p => var ∈ p.1.set) with
  | none =>
    rw [hf] at h
    simp at h
  | some p =>
    rw [hf] at h
    simp at h
    have hmem := List.mem_of_find?_eq_some hf
    have hpred := List.find?_some hf
    refine ⟨p.2, ?_, ?_⟩
    · rw [← h]
      exact hmem
    · rw [← h]
      simpa using hpred

theorem get_allocation_none_untracked (st : BlockState) (var : LlvmName)
    (h : st.get_allocation var = none) : ∀ p ∈ st.state, var ∉ p.1.set := by
  unfold BlockState.get_allocation at h
  cases hf : st.state.find? (fun p => var ∈ p.1.set) with
  | none =>
    intro p hp
    simpa using List.find?_eq_none.mp hf p hp
  | some p =>
    rw [hf] at h
    simp at h

/-! ## Disjointness preservation -/

theorem propagate_taint_pairwise (st : BlockState) (from_ dst : LlvmName)
    (hwf : PairwiseDisjointClasses st) :
    PairwiseDisjointClasses (st.propagate_taint from_ dst) := by
  unfold PairwiseDisjointClasses at hwf ⊢
  unfold BlockState.propagate_taint
  dsimp only
  split
  · -- the state of `from` is Untainted: possibly shrink the class of `to`
    cases hga : st.get_allocation dst with
    | none => exact hwf
    | some toAlloc =>
      dsimp only
      obtain ⟨s₀, hmem₀, hdst₀⟩ := get_allocation_mem st dst toAlloc hga
      split
      · exact hwf.sublist (by unfold mapRemove; exact List.filter_sublist _)
      · apply mapInsert_pairwise
        · exact hwf.sublist (by unfold mapRemove; exact List.filter_sublist _)
        · intro q hq
          have hqst : q ∈ st.state := by
            unfold mapRemove at hq
            exact List.mem_of_mem_filter hq
          have hqk : ¬ q.1 = toAlloc := by
            unfold mapRemove at hq
            simpa using (List.mem_filter.mp hq).2
          have hda : AllocDisjoint q.1 toAlloc ∧ AllocDisjoint toAlloc q.1 := by
            rcases disjoint_or_eq_of_mem st.state hwf q (toAlloc, s₀) hqst hmem₀ with he | hd
            · exact absurd (congrArg Prod.fst he) hqk
            · exact hd
          refine Or.inr ⟨?_, ?_⟩
          · intro v hv hv'
            exact hda.1 v hv (List.mem_of_mem_filter hv')
          · intro v hv hv'
            exact hda.1 v hv' (List.mem_of_mem_filter hv)
  · -- the state of `from` is not Untainted: merge the two classes
    cases hgf : st.get_allocation from_ with
    | none => exact hwf
    | some fromAlloc =>
      dsimp only
      obtain ⟨sf, hmemf, hfromf⟩ := get_allocation_mem st from_ fromAlloc hgf
      cases hgd : st.get_allocation dst with
      | some toAlloc =>
        dsimp only
        obtain ⟨st₀, hmemt, hdstt⟩ := get_allocation_mem st dst toAlloc hgd
        apply mapInsert_pairwise
        · have hws : (mapRemove st.state fromAlloc).Pairwise
              (fun p q => AllocDisjoint p.1 q.1) :=
            hwf.sublist (by unfold mapRemove; exact List.filter_sublist _)
          exact hws.sublist (by unfold mapRemove; exact List.filter_sublist _)
        · intro q hq
          have hq1 : q ∈ mapRemove st.state fromAlloc := by
            unfold mapRemove at hq
            exact List.mem_of_mem_filter hq
          have hqst : q ∈ st.state := by
            unfold mapRemove at hq1
            exact List.mem_of_mem_filter hq1
          have hqkt : ¬ q.1 = toAlloc := by
            unfold mapRemove at hq
            simpa using (List.mem_filter.mp hq).2
          have hqkf : ¬ q.1 = fromAlloc := by
            unfold mapRemove at hq1
            simpa using (List.mem_filter.mp hq1).2
          have hdf : AllocDisjoint q.1 fromAlloc ∧ AllocDisjoint fromAlloc q.1 := by
            rcases disjoint_or_eq_of_mem st.state hwf q (fromAlloc, sf) hqst hmemf with he | hd
            · exact absurd (congrArg Prod.fst he) hqkf
            · exact hd
          have hdt : AllocDisjoint q.1 toAlloc ∧ AllocDisjoint toAlloc q.1 := by
            rcases disjoint_or_eq_of_mem st.state hwf q (toAlloc, st₀) hqst hmemt with he | hd
            · exact absurd (congrArg Prod.fst he) hqkt
            · exact hd
          refine Or.inr ⟨?_, ?_⟩
          · intro v hv hv'
            rcases btreeMerge_mem fromAlloc.set toAlloc.set v hv' with h | h
            · exact hdf.1 v hv h
            · exact hdt.1 v hv h
          · intro v hv hv'
            rcases btreeMerge_mem fromAlloc.set toAlloc.set v hv with h | h
            · exact hdf.1 v hv' h
            · exact hdt.1 v hv' h
      | none =>
        dsimp only
        apply mapInsert_pairwise
        · exact hwf.sublist (by unfold mapRemove; exact List.filter_sublist _)
        · intro q hq
          have hqst : q ∈ st.state := by
            unfold mapRemove at hq
            exact List.mem_of_mem_filter hq
          have hqkf : ¬ q.1 = fromAlloc := by
            unfold mapRemove at hq
            simpa using (List.mem_filter.mp hq).2
          have hdf : AllocDisjoint q.1 fromAlloc ∧ AllocDisjoint fromAlloc q.1 := by
            rcases disjoint_or_eq_of_mem st.state hwf q (fromAlloc, sf) hqst hmemf with he | hd
            · exact absurd (congrArg Prod.fst he) hqkf
            · exact hd
          have hnd : ∀ p ∈ st.state, dst ∉ p.1.set := get_allocation_none_untracked st dst hgd
          refine Or.inr ⟨?_, ?_⟩
          · intro v hv hv'
            rcases btreeInsert_mem fromAlloc.set dst v hv' with he | hm
            · exact hnd q hqst (he ▸ hv)
            · exact hdf.1 v hv hm
          · intro v hv hv'
            rcases btreeInsert_mem fromAlloc.set dst v hv with he | hm
            · exact hnd q hqst (he ▸ hv')
            · exact hdf.1 v hv' hm

theorem set_tainted_pairwise (st : BlockState) (var : LlvmName) (s : MemoryState)
    (hwf : PairwiseDisjointClasses st) (hpre : SetTaintedPrefixOk st var) :
    PairwiseDisjointClasses (st.set_tainted var s) := by
  unfold PairwiseDisjointClasses at hwf ⊢
  unfold BlockState.set_tainted
  cases hga : st.get_allocation var with
  | some alloc =>
    dsimp only
    split
    · exact hwf.sublist (by unfold mapRemove; exact List.filter_sublist _)
    · obtain ⟨s₀, hmem₀, hvar₀⟩ := get_allocation_mem st var alloc hga
      apply mapInsert_pairwise
      · exact hwf.sublist (by unfold mapRemove; exact List.filter_sublist _)
      · intro q hq
        have hqst : q ∈ st.state := by
          unfold mapRemove at hq
          exact List.mem_of_mem_filter hq
        have hqk : ¬ q.1 = alloc := by
          unfold mapRemove at hq
          simpa using (List.mem_filter.mp hq).2
        have hda : AllocDisjoint q.1 alloc ∧ AllocDisjoint alloc q.1 := by
          rcases disjoint_or_eq_of_mem st.state hwf q (alloc, s₀) hqst hmem₀ with he | hd
          · exact absurd (congrArg Prod.fst he) hqk
          · exact hd
        have hkey : ∀ v ∈ (expandName alloc var).set, v ∉ q.1.set := by
          intro v hv
          rcases expandName_mem alloc var v hv with hm | hm
          · exact hda.2 v hm
          · rcases hpre v hm with huntracked | ⟨c, hc, hvc⟩
            · exact huntracked q hqst
            · have hc' : c = alloc := by
                rw [hga] at hc
                simpa using hc
              exact hda.2 v (hc' ▸ hvc)
        exact Or.inr ⟨fun v hv hv' => hkey v hv' hv, hkey⟩
  | none =>
    dsimp only
    split
    · apply mapInsert_pairwise
      · exact hwf
      · intro q hq
        have hnt : ∀ p ∈ st.state, var ∉ p.1.set := get_allocation_none_untracked st var hga
        have hkey : ∀ v ∈ (expandName (Allocation.new var) var).set, v ∉ q.1.set := by
          intro v hv
          rcases expandName_mem (Allocation.new var) var v hv with hm | hm
          · have hveq : v = var := by simpa [Allocation.new] using hm
            exact hveq ▸ hnt q hq
          · rcases hpre v hm with huntracked | ⟨c, hc, hvc⟩
            · exact huntracked q hq
            · rw [hga] at hc
              simp at hc
        exact Or.inr ⟨fun v hv hv' => hkey v hv' hv, hkey⟩
    · exact hwf

theorem union_pairwise (A B : BlockState) (hA : WFClasses A) (hB : WFClasses B)
    (hAB : CrossOk A B) : PairwiseDisjointClasses (A.union B) := by
  unfold PairwiseDisjointClasses
  rw [union_eq_goodUnion A B hA hB hAB]
  exact goodUnion_pairwise A B hA.2 hB.2 hAB

/-- **Claim C4** (amended).  When each operand's classes are pairwise
disjoint and non-empty and every class of `A` is equal to or disjoint from
every class of `B`, `BlockState::union` is an upper bound of both operands
in the `partial_cmp` order: `A <= A.union(B)` and `B <= A.union(B)`. -/
theorem claim4_union_upper_bound_amended (A B : BlockState)
    (hA : WFClasses A) (hB : WFClasses B) (hAB : CrossOk A B) :
    BlockState.le A (A.union B) = true ∧ BlockState.le B (A.union B) = true := by
  rw [union_eq_goodUnion A B hA hB hAB]
  exact ⟨le_left_goodUnion A B hA hB hAB, le_right_goodUnion A B hA hB hAB⟩

theorem claim4_union_upper_bound_amended_witness :
    WFClasses exW1 ∧ WFClasses exW2 ∧ CrossOk exW1 exW2 ∧
      (BlockState.le exW1 (exW1.union exW2) = true ∧
        BlockState.le exW2 (exW1.union exW2) = true) :=
  ⟨by decide, by decide, by decide,
    claim4_union_upper_bound_amended exW1 exW2 (by decide) (by decide) (by decide)⟩

/-- **Claim C5** (amended).  `propagate_taint` preserves pairwise
disjointness of the allocation classes unconditionally; `set_tainted`
preserves it provided every dot-prefix of the written name is untracked or
already in the name's own class; and `union` preserves it when every class
of one operand is equal to or disjoint from every class of the other (with
non-empty classes). -/
theorem claim5_disjointness_amended :
    (∀ (st : BlockState) (from_ dst : LlvmName), PairwiseDisjointClasses st →
      PairwiseDisjointClasses (st.propagate_taint from_ dst)) ∧
    (∀ (st : BlockState) (var : LlvmName) (s : MemoryState), PairwiseDisjointClasses st →
      SetTaintedPrefixOk st var → PairwiseDisjointClasses (st.set_tainted var s)) ∧
    (∀ A B : BlockState, WFClasses A → WFClasses B → CrossOk A B →
      PairwiseDisjointClasses (A.union B)) :=
  ⟨fun st from_ dst hwf => propagate_taint_pairwise st from_ dst hwf,
    fun st var s hwf hpre => set_tainted_pairwise st var s hwf hpre,
    fun A B hA hB hAB => union_pairwise A B hA hB hAB⟩

theorem claim5_disjointness_amended_witness :
    PairwiseDisjointClasses (exW3.propagate_taint (.num 1) (.num 3)) ∧
    PairwiseDisjointClasses (exW3.set_tainted (.num 4) .Tainted) ∧
    PairwiseDisjointClasses (exW1.union exW2) :=
  ⟨claim5_disjointness_amended.1 exW3 (.num 1) (.num 3) (by decide),
    claim5_disjointness_amended.2.1 exW3 (.num 4) .Tainted (by decide) (by decide),
    claim5_disjointness_amended.2.2 exW1 exW2 (by decide) (by decide) (by decide)⟩

end FFIChecker
